import Mathlib

/-!
Shallow embedding of `crates/uv-distribution/src/metadata/dependency_groups.rs`
(`SourcedDependencyGroups`): resolution of declared dependency groups into a
fully lowered, source-rewritten requirement set.

Identifier types are abstracted: `GroupName` is a normalized group identifier
(ordered as names are, modelled by `Nat`); `PackageName` and `ExtraName` are
normalized package/extra identifiers (modelled by `String`).  `BTreeMap` is
modelled by a key-sorted association list (`btreeOf` mirrors `collect` into a
`BTreeMap`, sequential insertion with replacement).

The group flattener (`FlatDependencyGroups::from_dependency_groups`, crate
`uv-workspace`) and the per-requirement lowering primitive
(`LoweredRequirement::from_requirement`, `metadata/lower.rs`) are collaborators
that are not part of the embedded file; they are modelled from the spec where
a claim depends on their behavior, and are otherwise abstracted (the lowering
primitive is a function parameter of the pipeline, mirroring the call site).
-/

namespace Uv

/-- Normalized group identifier (ordered, `BTreeMap` keys sort by it). -/
abbrev GroupName := Nat

/-- Normalized package identifier. -/
abbrev PackageName := String

/-- Normalized extra identifier. -/
abbrev ExtraName := String

/-- Opaque error of the requirement-lowering collaborator. -/
abbrev LowerError := String

/-- The reserved group name for the legacy `dev-dependencies` bucket
(`DEV_DEPENDENCIES` in `uv-normalize`, the `dev` group). -/
def DEV_DEPENDENCIES : GroupName := 0

/-- A declared requirement before source lowering: package name plus opaque
version/marker constraint text and an optional unresolved inline source hint
(`uv_pep508::Requirement`). -/
structure RequirementSpec where
  name : PackageName
  constraint : String
  hint : Option String
deriving DecidableEq

/-- One entry of a raw dependency group: either a direct requirement or an
`include-group` reference. -/
inductive GroupEntry where
  | requirement (r : RequirementSpec)
  | includeGroup (g : GroupName)
deriving DecidableEq

/-- The resolved source of a lowered requirement.  Modelled from the spec:
either the plain registry form or the result of applying a source override
(the override's opaque descriptor). -/
inductive LoweredSource where
  | registry
  | fromOverride (descriptor : String)
deriving DecidableEq

/-- A fully lowered requirement (`uv_distribution_types::Requirement`). -/
structure Requirement where
  name : PackageName
  constraint : String
  source : LoweredSource
deriving DecidableEq

/-- Modelled from the spec: the `From` conversion applied in the
`SourceStrategy::Disabled` branch (`Requirement::from`), which passes the
requirement through in its plain declared form, stripped of unresolved
source hints. -/
def Requirement.ofSpec (r : RequirementSpec) : Requirement :=
  { name := r.name, constraint := r.constraint, source := LoweredSource.registry }

/-- The scope of a source override: unscoped, scoped to an extra, or scoped
to a dependency group (a closed tagged variant, per the spec's data model). -/
inductive SourceScope where
  | unscoped
  | extra (name : ExtraName)
  | group (g : GroupName)
deriving DecidableEq

/-- One source override: a scope plus an opaque source descriptor
(path / git / url / index payload, not interpreted by this file). -/
structure Source where
  scope : SourceScope
  descriptor : String
deriving DecidableEq

/-- Mirror of `Source::group()`: the group this override is scoped to, if any. -/
def Source.group (s : Source) : Option GroupName :=
  match s.scope with
  | SourceScope.group g => some g
  | _ => none

/-- Mirror of `Source::extra()`: the extra this override is scoped to, if any. -/
def Source.extraScope (s : Source) : Option ExtraName :=
  match s.scope with
  | SourceScope.extra e => some e
  | _ => none

/-- The error kinds of the embedded pipeline (the relevant variants of
`MetadataError`; the flattening errors are the spec's `CyclicGroupInclusion`
and `UnknownGroupReference`). -/
inductive MetadataError where
  | CyclicGroupInclusion (g : GroupName)
  | UnknownGroupReference (referrer : GroupName) (missing : GroupName)
  | MissingSourceGroup (package : PackageName) (g : GroupName)
  | IncompleteSourceGroup (package : PackageName) (g : GroupName)
  | GroupLoweringError (g : GroupName) (package : PackageName) (inner : LowerError)
deriving DecidableEq

/-- `uv_configuration::SourceStrategy`. -/
inductive SourceStrategy where
  | Enabled
  | Disabled
deriving DecidableEq

/-- Raw dependency groups: group name mapped to its ordered entry list. -/
abbrev RawGroups := List (GroupName × List GroupEntry)

/-- Flattened dependency groups (`FlatDependencyGroups`): group name mapped to
its ordered requirement list, no include entries remaining. -/
abbrev FlatGroups := List (GroupName × List RequirementSpec)

/-- `tool.uv.sources`: package name mapped to its ordered override list. -/
abbrev SourcesTable := List (PackageName × List Source)

/-- Association-list lookup (first match wins), the model of map `get`. -/
def lookupKey {α : Type} {β : Type} [DecidableEq α] (k : α) :
    List (α × β) → Option β
  | [] => none
  | p :: rest => if p.1 = k then some p.2 else lookupKey k rest

/-- Termination measure for the flattener: the number of group keys not yet on
the visitation stack. -/
def keysNotIn (raw : RawGroups) (stack : List GroupName) : Nat :=
  ((raw.map Prod.fst).filter (fun k => decide (k ∉ stack))).length

/-- Modelled from the spec: the depth-first expansion at the heart of the
group flattener (`FlatDependencyGroups::from_dependency_groups`, crate
`uv-workspace`, not part of the embedded file).  `stack` is the visitation
stack (most recent group first) used for cycle detection; `referrer` is the
group whose entries are being expanded (reported on missing references).
Requirement entries are kept in declaration order; included groups are
expanded in place at the position of their entry. -/
def expandEntries (raw : RawGroups) :
    List GroupName → GroupName → List GroupEntry →
      Except MetadataError (List RequirementSpec)
  | _, _, [] => Except.ok []
  | stack, referrer, GroupEntry.requirement r :: rest =>
    match expandEntries raw stack referrer rest with
    | Except.error e => Except.error e
    | Except.ok rs => Except.ok (r :: rs)
  | stack, referrer, GroupEntry.includeGroup g :: rest =>
    if hmem : g ∈ stack then
      Except.error (MetadataError.CyclicGroupInclusion g)
    else
      match hfind : lookupKey g raw with
      | none => Except.error (MetadataError.UnknownGroupReference referrer g)
      | some entries =>
        match expandEntries raw (g :: stack) g entries with
        | Except.error e => Except.error e
        | Except.ok xs =>
          match expandEntries raw stack referrer rest with
          | Except.error e => Except.error e
          | Except.ok ys => Except.ok (xs ++ ys)
termination_by stack referrer es => (keysNotIn raw stack, es.length)
decreasing_by
  · apply Prod.Lex.right
    simp
  · apply Prod.Lex.left
    have hg : ∀ (l : List (GroupName × List GroupEntry)) (v : List GroupEntry),
        lookupKey g l = some v → g ∈ l.map Prod.fst := by
      intro l
      induction l with
      | nil => intro v hv; simp [lookupKey] at hv
      | cons p rest ih =>
        intro v hv
        by_cases hp : p.1 = g
        · simp [hp]
        · simp only [lookupKey, hp, if_false] at hv
          simp [ih v hv]
    have hmono : ∀ (ks : List GroupName),
        ((ks.filter (fun k => decide (k ∉ g :: stack))).length)
          ≤ ((ks.filter (fun k => decide (k ∉ stack))).length) := by
      intro ks
      induction ks with
      | nil => simp
      | cons k ks ih =>
        by_cases hk : k ∈ stack
        · have h1 : (decide (k ∉ stack)) = false := by simp [hk]
          have h2 : (decide (k ∉ g :: stack)) = false := by simp [hk]
          simp only [List.filter_cons, h1, h2, if_false]
          exact ih
        · by_cases hkg : k = g
          · have h1 : (decide (k ∉ stack)) = true := by simp [hk]
            have h2 : (decide (k ∉ g :: stack)) = false := by simp [hkg]
            simp only [List.filter_cons, h1, h2, if_false, if_true,
              List.length_cons]
            exact Nat.le_trans ih (Nat.le_succ _)
          · have h1 : (decide (k ∉ stack)) = true := by simp [hk]
            have h2 : (decide (k ∉ g :: stack)) = true := by
              simp [hk, hkg]
            simp only [List.filter_cons, h1, h2, if_true, List.length_cons]
            exact Nat.succ_le_succ ih
    have hdec : ∀ (ks : List GroupName), g ∈ ks →
        ((ks.filter (fun k => decide (k ∉ g :: stack))).length)
          < ((ks.filter (fun k => decide (k ∉ stack))).length) := by
      intro ks
      induction ks with
      | nil => intro h; simp at h
      | cons k ks ih =>
        intro hgk
        by_cases hkg : k = g
        · have h1 : (decide (k ∉ stack)) = true := by
            subst hkg; simp [hmem]
          have h2 : (decide (k ∉ g :: stack)) = false := by simp [hkg]
          simp only [List.filter_cons, h1, h2, if_false, if_true,
            List.length_cons]
          exact Nat.lt_succ_of_le (hmono ks)
        · have hgk' : g ∈ ks := by
            rcases List.mem_cons.mp hgk with h1 | h1
            · exact absurd h1.symm hkg
            · exact h1
          by_cases hk : k ∈ stack
          · have h1 : (decide (k ∉ stack)) = false := by simp [hk]
            have h2 : (decide (k ∉ g :: stack)) = false := by simp [hk]
            simp only [List.filter_cons, h1, h2, if_false]
            exact ih hgk'
          · have h1 : (decide (k ∉ stack)) = true := by simp [hk]
            have h2 : (decide (k ∉ g :: stack)) = true := by simp [hk, hkg]
            simp only [List.filter_cons, h1, h2, if_true, List.length_cons]
            exact Nat.succ_lt_succ (ih hgk')
    exact hdec (raw.map Prod.fst) (hg raw entries hfind)
  · apply Prod.Lex.right
    simp

/-- Modelled from the spec: the per-group deduplication of the flattener
(dedup key: normalized package name; first occurrence wins, later occurrences
dropped silently). -/
def dedupByName (seen : List PackageName) :
    List RequirementSpec → List RequirementSpec
  | [] => []
  | r :: rest =>
    if r.name ∈ seen then dedupByName seen rest
    else r :: dedupByName (r.name :: seen) rest

/-- Short-circuiting map over `Except` (the model of collecting an iterator of
`Result`s: the first error aborts). -/
def exceptMap {α β : Type} (f : α → Except MetadataError β) :
    List α → Except MetadataError (List β)
  | [] => Except.ok []
  | a :: rest =>
    match f a with
    | Except.error e => Except.error e
    | Except.ok b =>
      match exceptMap f rest with
      | Except.error e => Except.error e
      | Except.ok bs => Except.ok (b :: bs)

/-- Modelled from the spec: the group flattener
(`FlatDependencyGroups::from_dependency_groups`): each group of the raw map is
depth-first expanded with cycle detection, then deduplicated by package name.
The raw map is iterated in its (sorted) key order. -/
def flatten (raw : RawGroups) : Except MetadataError FlatGroups :=
  exceptMap
    (fun p =>
      match expandEntries raw [p.1] p.1 p.2 with
      | Except.error e => Except.error e
      | Except.ok rs => Except.ok (p.1, dedupByName [] rs))
    raw

/-- Sorted-association-list insertion with replacement: the model of
`BTreeMap::insert`. -/
def insertSorted {β : Type} (k : GroupName) (v : β) :
    List (GroupName × β) → List (GroupName × β)
  | [] => [(k, v)]
  | p :: rest =>
    if k < p.1 then (k, v) :: p :: rest
    else if k = p.1 then (k, v) :: rest
    else p :: insertSorted k v rest

/-- The model of `collect::<BTreeMap<_, _>>()`: sequential sorted insertion. -/
def btreeOf {β : Type} (l : List (GroupName × β)) : List (GroupName × β) :=
  l.foldl (fun acc p => insertSorted p.1 p.2 acc) []

/-- A key-sorted association list: the well-formedness invariant of the
`BTreeMap` model (strictly increasing keys, hence no duplicates). -/
def KeySorted {β : Type} (l : List (GroupName × β)) : Prop :=
  List.Pairwise (fun a b => a.1 < b.1) l

/-- Mirror of `dependency_groups.entry(k).or_insert_with(Vec::new).extend(vs)`
on the `BTreeMap`-backed flat groups: extend the entry for `k` in place if it
exists, otherwise insert a fresh entry at its sorted position. -/
def entryExtend (k : GroupName) (vs : List RequirementSpec) :
    FlatGroups → FlatGroups
  | [] => [(k, vs)]
  | p :: rest =>
    if p.1 = k then (p.1, p.2 ++ vs) :: rest
    else if k < p.1 then (k, vs) :: p :: rest
    else p :: entryExtend k vs rest

/-- Mirror of the legacy merge (lines 94-100): if `tool.uv.dev-dependencies`
is defined, append its requirements to the reserved `dev` group, creating the
group if absent. -/
def legacy_merge (fg : FlatGroups) :
    Option (List RequirementSpec) → FlatGroups
  | none => fg
  | some devs => entryExtend DEV_DEPENDENCIES devs fg

/-- The per-override check of `validate_sources` (the body of the inner loop,
lines 167-188): a group-scoped override must name an existing flattened group
that contains a requirement with the override's package name. -/
def checkOneSource (dependency_groups : FlatGroups) (name : PackageName)
    (source : Source) : Option MetadataError :=
  match Source.group source with
  | none => none
  | some grp =>
    match lookupKey grp dependency_groups with
    | none => some (MetadataError.MissingSourceGroup name grp)
    | some dependencies =>
      if dependencies.any (fun requirement => decide (requirement.name = name))
      then none
      else some (MetadataError.IncompleteSourceGroup name grp)

/-- The inner loop of `validate_sources` over one package's override list:
first violation wins. -/
def validateSourcesList (dependency_groups : FlatGroups) (name : PackageName) :
    List Source → Option MetadataError
  | [] => none
  | s :: rest =>
    match checkOneSource dependency_groups name s with
    | some e => some e
    | none => validateSourcesList dependency_groups name rest

/-- Mirror of `SourcedDependencyGroups::validate_sources` (lines 162-192):
scan packages, then their overrides, in table order; return the first
violation, `Ok(())` if none. -/
def validate_sources (sources : SourcesTable)
    (dependency_groups : FlatGroups) : Except MetadataError Unit :=
  match sources with
  | [] => Except.ok ()
  | (name, srcs) :: rest =>
    match validateSourcesList dependency_groups name srcs with
    | some e => Except.error e
    | none => validate_sources rest dependency_groups

/-- Short-circuiting collection of a list of results (the model of
`collect::<Result<Box<_>, _>>()`): first error wins. -/
def firstErrorOr {β : Type} :
    List (Except MetadataError β) → Except MetadataError (List β)
  | [] => Except.ok []
  | Except.error e :: _ => Except.error e
  | Except.ok b :: rest =>
    match firstErrorOr rest with
    | Except.error e => Except.error e
    | Except.ok bs => Except.ok (b :: bs)

/-- The signature of the requirement-lowering collaborator as invoked at the
call site (lines 120-131): it receives the project source table, the
requirement, the extra context, and the group context, and yields a sequence
of per-item results (`from_requirement` returns an iterator of `Result`s). -/
abbrev LowerFn :=
  SourcesTable → RequirementSpec → Option ExtraName → Option GroupName →
    List (Except LowerError Requirement)

/-- The error wrapping of lines 132-141: a failed item becomes
`GroupLoweringError(group, package, inner)`. -/
def wrapLowered (g : GroupName) (package : PackageName)
    (res : Except LowerError Requirement) : Except MetadataError Requirement :=
  match res with
  | Except.ok q => Except.ok q
  | Except.error e => Except.error (MetadataError.GroupLoweringError g package e)

/-- Lowering of one group's requirement list in the `Enabled` branch: each
requirement is passed to the collaborator with `extra = none` and
`group = some` the current group (lines 113-143); the produced items are
concatenated in order and the first error aborts. -/
def lowerList (lower : LowerFn) (project_sources : SourcesTable)
    (g : GroupName) : List RequirementSpec → Except MetadataError (List Requirement)
  | [] => Except.ok []
  | r :: rest =>
    match firstErrorOr ((lower project_sources r none (some g)).map
        (wrapLowered g r.name)) with
    | Except.error e => Except.error e
    | Except.ok qs =>
      match lowerList lower project_sources g rest with
      | Except.error e => Except.error e
      | Except.ok qs' => Except.ok (qs ++ qs')

/-- The lowering stage (lines 110-150): per group, either lower every
requirement through the collaborator (`Enabled`) or pass each requirement
through as its plain declared form (`Disabled`). -/
def lowerGroups (source_strategy : SourceStrategy) (lower : LowerFn)
    (project_sources : SourcesTable) (fg : FlatGroups) :
    Except MetadataError (List (GroupName × List Requirement)) :=
  exceptMap
    (fun p =>
      match source_strategy with
      | SourceStrategy.Enabled =>
        match lowerList lower project_sources p.1 p.2 with
        | Except.error e => Except.error e
        | Except.ok qs => Except.ok (p.1, qs)
      | SourceStrategy.Disabled =>
        Except.ok (p.1, p.2.map Requirement.ofSpec))
    fg

/-- The final output of the pipeline (struct `SourcedDependencyGroups`,
lines 13-17): the optional project name and the `BTreeMap` of lowered
groups. -/
structure SourcedDependencyGroups where
  name : Option PackageName
  dependency_groups : List (GroupName × List Requirement)
deriving DecidableEq

/-- Mirror of `SourcedDependencyGroups::from_virtual_project` (lines 22-156)
after project discovery: `manifest_sources` is the parsed `tool.uv.sources`
table, `dev_dependencies` the parsed `tool.uv.dev-dependencies` list,
`raw_dependency_groups` the parsed `dependency-groups` table, and `lower` the
requirement-lowering collaborator.  With `Disabled` strategy the override
table is replaced by the empty table (lines 58-69).  The raw groups are
collected into a `BTreeMap` (line 87), flattened, merged with the legacy
bucket, validated, lowered, and collected into the output `BTreeMap`
(line 150). -/
def from_virtual_project (raw_dependency_groups : RawGroups)
    (dev_dependencies : Option (List RequirementSpec))
    (manifest_sources : SourcesTable) (source_strategy : SourceStrategy)
    (lower : LowerFn) (project_name : Option PackageName) :
    Except MetadataError SourcedDependencyGroups :=
  let project_sources : SourcesTable :=
    match source_strategy with
    | SourceStrategy.Enabled => manifest_sources
    | SourceStrategy.Disabled => []
  let raw := btreeOf raw_dependency_groups
  match flatten raw with
  | Except.error e => Except.error e
  | Except.ok flat =>
    let dependency_groups := legacy_merge flat dev_dependencies
    match validate_sources project_sources dependency_groups with
    | Except.error e => Except.error e
    | Except.ok _ =>
      match lowerGroups source_strategy lower project_sources dependency_groups with
      | Except.error e => Except.error e
      | Except.ok lowered =>
        Except.ok ⟨project_name, btreeOf lowered⟩

/-- Modelled from the spec: whether a source override applies to a requirement
occurrence given the extra/group context (§4.4: overrides whose scope is
`Unscoped` or `Group(current group)` are selected; an `Extra`-scoped override
applies only under a matching extra context). -/
def sourceApplies (s : Source) (extra : Option ExtraName)
    (grp : Option GroupName) : Bool :=
  match s.scope with
  | SourceScope.unscoped => true
  | SourceScope.extra e => decide (extra = some e)
  | SourceScope.group g => decide (grp = some g)

/-- Modelled from the spec: the requirement-lowering primitive
(`LoweredRequirement::from_requirement`, §4.4): consult the override table for
the package, select the overrides applicable in the current extra/group
context, apply the first applicable override; with no applicable override the
requirement resolves to its plain registry form. -/
def lower_requirement (project_sources : SourcesTable) (r : RequirementSpec)
    (extra : Option ExtraName) (grp : Option GroupName) :
    List (Except LowerError Requirement) :=
  match (lookupKey r.name project_sources).getD [] |>.filter
      (fun s => sourceApplies s extra grp) with
  | [] => [Except.ok (Requirement.ofSpec r)]
  | s :: _ =>
    [Except.ok { name := r.name, constraint := r.constraint,
                 source := LoweredSource.fromOverride s.descriptor }]

/-- A direct `include-group` edge of the raw group map: group `g`'s entry list
contains an `IncludeGroup(h)` reference. -/
def hasEdge (raw : RawGroups) (g h : GroupName) : Prop :=
  ∃ entries, lookupKey g raw = some entries ∧
    GroupEntry.includeGroup h ∈ entries

/-- Transitive (nonempty-path) reachability along `include-group` edges;
`Reaches raw g g` says that `g` transitively includes itself. -/
inductive Reaches (raw : RawGroups) : GroupName → GroupName → Prop where
  | single {g h : GroupName} : hasEdge raw g h → Reaches raw g h
  | cons {g h k : GroupName} : hasEdge raw g h → Reaches raw h k →
      Reaches raw g k

/-- Every `include-group` reference of the raw map resolves to an existing
group. -/
def AllRefsExist (raw : RawGroups) : Prop :=
  ∀ g entries h, lookupKey g raw = some entries →
    GroupEntry.includeGroup h ∈ entries → (lookupKey h raw).isSome

/-- The visitation-stack invariant of the depth-first expansion: consecutive
stack entries (most recent first) are joined by `include-group` edges. -/
def chainedStack (raw : RawGroups) : List GroupName → Prop
  | [] => True
  | [_] => True
  | h :: g :: rest => hasEdge raw g h ∧ chainedStack raw (g :: rest)

/-- The ok payloads of a result sequence, in order (what collecting yields
when no item is an error). -/
def okPayloads : List (Except LowerError Requirement) → List Requirement
  | [] => []
  | Except.ok q :: rest => q :: okPayloads rest
  | Except.error _ :: rest => okPayloads rest

/-- Concatenation of a list of lists, in order. -/
def joinLists {α : Type} : List (List α) → List α
  | [] => []
  | l :: rest => l ++ joinLists rest

/-- The full lowered output of one group in the `Enabled` branch when every
item succeeds: the per-requirement ok payloads concatenated in requirement
order. -/
def groupLowered (lower : LowerFn) (project_sources : SourcesTable)
    (g : GroupName) (reqs : List RequirementSpec) : List Requirement :=
  joinLists (reqs.map (fun r => okPayloads (lower project_sources r none (some g))))

/-- Sample requirement on package `alpha` (used in concrete witnesses). -/
def reqA : RequirementSpec := { name := "alpha", constraint := "", hint := none }

/-- Sample requirement on package `beta` (used in concrete witnesses). -/
def reqB : RequirementSpec := { name := "beta", constraint := "", hint := none }

/-- Sample requirement on package `gamma` (used in concrete witnesses). -/
def reqC : RequirementSpec := { name := "gamma", constraint := "", hint := none }

/-- A lowering collaborator that fails on every item (used in concrete
witnesses of the error paths). -/
def failLower : LowerFn := fun _ _ _ _ => [Except.error "boom"]

/-! Helper lemmas about the association-list map model. -/

lemma lookupKey_mem {α β : Type} [DecidableEq α] {k : α} {v : β} :
    ∀ {l : List (α × β)}, lookupKey k l = some v → (k, v) ∈ l := by
  intro l
  induction l with
  | nil => intro h; simp [lookupKey] at h
  | cons p rest ih =>
    intro h
    cases p with
    | mk k1 v1 =>
      by_cases hp : k1 = k
      · subst hp
        simp [lookupKey] at h
        rw [← h]
        exact List.mem_cons_self _ _
      · simp only [lookupKey, hp, if_false] at h
        exact List.mem_cons_of_mem _ (ih h)

lemma lookupKey_mem_keys {α β : Type} [DecidableEq α] {k : α} {v : β}
    {l : List (α × β)} (h : lookupKey k l = some v) : k ∈ l.map Prod.fst := by
  have := lookupKey_mem h
  exact List.mem_map.mpr ⟨(k, v), this, rfl⟩

lemma lookupKey_eq_none {α β : Type} [DecidableEq α] {k : α} :
    ∀ {l : List (α × β)}, (∀ p ∈ l, p.1 ≠ k) → lookupKey k l = none := by
  intro l
  induction l with
  | nil => intro _; rfl
  | cons p rest ih =>
    intro h
    simp only [lookupKey, h p (List.mem_cons_self p rest), if_false]
    exact ih (fun q hq => h q (List.mem_cons_of_mem p hq))

lemma keySorted_cons {β : Type} {p : GroupName × β} {l : List (GroupName × β)}
    (h : KeySorted (p :: l)) : (∀ q ∈ l, p.1 < q.1) ∧ KeySorted l := by
  unfold KeySorted at h
  rw [List.pairwise_cons] at h
  exact h

lemma lookupKey_of_mem_sorted {β : Type} {k : GroupName} {v : β} :
    ∀ {l : List (GroupName × β)}, KeySorted l → (k, v) ∈ l →
      lookupKey k l = some v := by
  intro l
  induction l with
  | nil => intro _ h; simp at h
  | cons p rest ih =>
    intro hs hm
    rcases keySorted_cons hs with ⟨hlt, hs'⟩
    rcases List.mem_cons.mp hm with h | h
    · rw [← h]
      simp [lookupKey]
    · have hk : p.1 < k := by
        have := hlt (k, v) h
        exact this
      have hne : p.1 ≠ k := Nat.ne_of_lt hk
      simp only [lookupKey, hne, if_false]
      exact ih hs' h

/-! Helper lemmas about short-circuiting collection. -/

lemma exceptMap_ok_forall₂ {α β : Type} {f : α → Except MetadataError β} :
    ∀ {l : List α} {out : List β}, exceptMap f l = Except.ok out →
      List.Forall₂ (fun a b => f a = Except.ok b) l out := by
  intro l
  induction l with
  | nil =>
    intro out h
    simp only [exceptMap, Except.ok.injEq] at h
    rw [← h]
    exact List.Forall₂.nil
  | cons a rest ih =>
    intro out h
    cases hfa : f a with
    | error e => simp [exceptMap, hfa] at h
    | ok b =>
      cases hrest : exceptMap f rest with
      | error e => simp [exceptMap, hfa, hrest] at h
      | ok bs =>
        simp only [exceptMap, hfa, hrest, Except.ok.injEq] at h
        rw [← h]
        exact List.Forall₂.cons hfa (ih hrest)

lemma exceptMap_ok_forall {α β : Type} {f : α → Except MetadataError β}
    {l : List α} {out : List β} (h : exceptMap f l = Except.ok out) :
    ∀ a ∈ l, ∃ b, f a = Except.ok b := by
  have h2 := exceptMap_ok_forall₂ h
  clear h
  induction h2 with
  | nil => intro a ha; simp at ha
  | cons hab _ ih =>
    intro a ha
    rcases List.mem_cons.mp ha with h1 | h1
    · rw [h1]; exact ⟨_, hab⟩
    · exact ih a h1

lemma exceptMap_error_exists {α β : Type} {f : α → Except MetadataError β} :
    ∀ {l : List α} {e : MetadataError}, exceptMap f l = Except.error e →
      ∃ a ∈ l, f a = Except.error e := by
  intro l
  induction l with
  | nil => intro e h; simp [exceptMap] at h
  | cons a rest ih =>
    intro e h
    cases hfa : f a with
    | error e' =>
      simp only [exceptMap, hfa, Except.error.injEq] at h
      exact ⟨a, List.mem_cons_self a rest, by rw [hfa, h]⟩
    | ok b =>
      cases hrest : exceptMap f rest with
      | error e' =>
        simp only [exceptMap, hfa, hrest, Except.error.injEq] at h
        rcases ih hrest with ⟨a', ha', hfa'⟩
        exact ⟨a', List.mem_cons_of_mem a ha', by rw [hfa', h]⟩
      | ok bs => simp [exceptMap, hfa, hrest] at h

lemma exceptMap_map {α β : Type} {f : α → Except MetadataError β}
    {g : α → β} :
    ∀ {l : List α}, (∀ a ∈ l, f a = Except.ok (g a)) →
      exceptMap f l = Except.ok (l.map g) := by
  intro l
  induction l with
  | nil => intro _; rfl
  | cons a rest ih =>
    intro h
    have ha := h a (List.mem_cons_self a rest)
    have hrest := ih (fun a' ha' => h a' (List.mem_cons_of_mem a ha'))
    simp [exceptMap, ha, hrest]

lemma firstErrorOr_ok_forall₂ {β : Type} :
    ∀ {l : List (Except MetadataError β)} {out : List β},
      firstErrorOr l = Except.ok out →
        List.Forall₂ (fun x b => x = Except.ok b) l out := by
  intro l
  induction l with
  | nil =>
    intro out h
    simp only [firstErrorOr, Except.ok.injEq] at h
    rw [← h]
    exact List.Forall₂.nil
  | cons x rest ih =>
    intro out h
    cases x with
    | error e => simp [firstErrorOr] at h
    | ok b =>
      cases hrest : firstErrorOr rest with
      | error e => simp [firstErrorOr, hrest] at h
      | ok bs =>
        simp only [firstErrorOr, hrest, Except.ok.injEq] at h
        rw [← h]
        exact List.Forall₂.cons rfl (ih hrest)

lemma firstErrorOr_error_mem {β : Type} :
    ∀ {l : List (Except MetadataError β)} {e : MetadataError},
      firstErrorOr l = Except.error e → Except.error e ∈ l := by
  intro l
  induction l with
  | nil => intro e h; simp [firstErrorOr] at h
  | cons x rest ih =>
    intro e h
    cases x with
    | error e' =>
      simp only [firstErrorOr, Except.error.injEq] at h
      rw [← h]
      exact List.mem_cons_self _ _
    | ok b =>
      cases hrest : firstErrorOr rest with
      | error e' =>
        simp only [firstErrorOr, hrest, Except.error.injEq] at h
        rw [← h]
        exact List.mem_cons_of_mem _ (ih hrest)
      | ok bs => simp [firstErrorOr, hrest] at h

lemma insertSorted_mem {β : Type} {k : GroupName} {v : β} :
    ∀ {l : List (GroupName × β)} {q : GroupName × β},
      q ∈ insertSorted k v l → q = (k, v) ∨ q ∈ l := by
  intro l
  induction l with
  | nil => intro q hq; simp [insertSorted] at hq; left; exact hq
  | cons p rest ih =>
    intro q hq
    by_cases h1 : k < p.1
    · simp only [insertSorted, if_pos h1] at hq
      rcases List.mem_cons.mp hq with h | h
      · left; exact h
      · right; exact h
    · by_cases h2 : k = p.1
      · simp only [insertSorted, if_neg h1, if_pos h2] at hq
        rcases List.mem_cons.mp hq with h | h
        · left; exact h
        · right; exact List.mem_cons_of_mem p h
      · simp only [insertSorted, if_neg h1, if_neg h2] at hq
        rcases List.mem_cons.mp hq with h | h
        · right; rw [h]; exact List.mem_cons_self p rest
        · rcases ih h with h' | h'
          · left; exact h'
          · right; exact List.mem_cons_of_mem p h'

lemma insertSorted_sorted {β : Type} {k : GroupName} {v : β} :
    ∀ {l : List (GroupName × β)}, KeySorted l →
      KeySorted (insertSorted k v l) := by
  intro l
  induction l with
  | nil =>
    intro _
    unfold KeySorted insertSorted
    simp
  | cons p rest ih =>
    intro hs
    rcases keySorted_cons hs with ⟨hlt, hs'⟩
    by_cases h1 : k < p.1
    · simp only [insertSorted, if_pos h1]
      unfold KeySorted
      rw [List.pairwise_cons]
      constructor
      · intro q hq
        rcases List.mem_cons.mp hq with h | h
        · rw [h]; exact h1
        · exact Nat.lt_trans h1 (hlt q h)
      · exact hs
    · by_cases h2 : k = p.1
      · simp only [insertSorted, if_neg h1, if_pos h2]
        unfold KeySorted
        rw [List.pairwise_cons]
        constructor
        · intro q hq
          rw [h2]
          exact hlt q hq
        · exact hs'
      · simp only [insertSorted, if_neg h1, if_neg h2]
        unfold KeySorted
        rw [List.pairwise_cons]
        constructor
        · intro q hq
          rcases insertSorted_mem hq with h | h
          · rw [h]
            have : p.1 ≤ k := Nat.le_of_not_lt h1
            exact Nat.lt_of_le_of_ne this (fun he => h2 he.symm)
          · exact hlt q h
        · exact ih hs'

lemma btreeOf_sorted {β : Type} (l : List (GroupName × β)) :
    KeySorted (btreeOf l) := by
  have aux : ∀ (m : List (GroupName × β)) (acc : List (GroupName × β)),
      KeySorted acc →
        KeySorted (m.foldl (fun acc p => insertSorted p.1 p.2 acc) acc) := by
    intro m
    induction m with
    | nil => intro acc h; exact h
    | cons p rest ih =>
      intro acc h
      exact ih _ (insertSorted_sorted h)
  exact aux l [] (by unfold KeySorted; exact List.Pairwise.nil)

lemma insertSorted_append {β : Type} {k : GroupName} {v : β} :
    ∀ {l : List (GroupName × β)}, (∀ p ∈ l, p.1 < k) →
      insertSorted k v l = l ++ [(k, v)] := by
  intro l
  induction l with
  | nil => intro _; rfl
  | cons p rest ih =>
    intro h
    have hp := h p (List.mem_cons_self p rest)
    have h1 : ¬ k < p.1 := Nat.not_lt.mpr (Nat.le_of_lt hp)
    have h2 : ¬ k = p.1 := fun he => Nat.lt_irrefl k (he ▸ hp)
    simp only [insertSorted, if_neg h1, if_neg h2]
    rw [ih (fun q hq => h q (List.mem_cons_of_mem p hq))]
    simp

lemma btreeOf_id {β : Type} :
    ∀ {l : List (GroupName × β)}, KeySorted l → btreeOf l = l := by
  have aux : ∀ (m : List (GroupName × β)) (acc : List (GroupName × β)),
      KeySorted (acc ++ m) →
        m.foldl (fun acc p => insertSorted p.1 p.2 acc) acc = acc ++ m := by
    intro m
    induction m with
    | nil => intro acc _; simp
    | cons p rest ih =>
      intro acc h
      have hcross : ∀ q ∈ acc, q.1 < p.1 := by
        intro q hq
        unfold KeySorted at h
        rw [List.pairwise_append] at h
        exact h.2.2 q hq p (List.mem_cons_self p rest)
      simp only [List.foldl_cons]
      rw [insertSorted_append hcross]
      have h' : KeySorted ((acc ++ [p]) ++ rest) := by
        rw [List.append_assoc]
        simpa using h
      rw [ih (acc ++ [(p.1, p.2)]) (by simpa using h')]
      simp
  intro l h
  exact aux l [] (by simpa using h)

lemma keySorted_congr {β γ : Type} {l₁ : List (GroupName × β)}
    {l₂ : List (GroupName × γ)} (hk : l₁.map Prod.fst = l₂.map Prod.fst)
    (h : KeySorted l₁) : KeySorted l₂ := by
  unfold KeySorted at h ⊢
  have h1 : (l₁.map Prod.fst).Pairwise (fun a b => a < b) := by
    rw [List.pairwise_map]
    exact h
  rw [hk, List.pairwise_map] at h1
  exact h1

lemma lookupKey_map_val {β γ : Type} (F : GroupName → β → γ) :
    ∀ (l : List (GroupName × β)) (g : GroupName),
      lookupKey g (l.map (fun p => (p.1, F p.1 p.2)))
        = (lookupKey g l).map (fun v => F g v) := by
  intro l
  induction l with
  | nil => intro g; rfl
  | cons p rest ih =>
    intro g
    by_cases hp : p.1 = g
    · simp [lookupKey, hp]
    · simp only [List.map_cons, lookupKey, hp, if_false]
      exact ih g

lemma entryExtend_key_mem {k : GroupName} {vs : List RequirementSpec} :
    ∀ {l : FlatGroups} {q : GroupName × List RequirementSpec},
      q ∈ entryExtend k vs l → q.1 = k ∨ q.1 ∈ l.map Prod.fst := by
  intro l
  induction l with
  | nil =>
    intro q hq
    simp only [entryExtend] at hq
    rcases List.mem_cons.mp hq with h | h
    · left; rw [h]
    · simp at h
  | cons p rest ih =>
    intro q hq
    by_cases h1 : p.1 = k
    · simp only [entryExtend, if_pos h1] at hq
      rcases List.mem_cons.mp hq with h | h
      · left; rw [h]; exact h1
      · right; simp only [List.map_cons]
        exact List.mem_cons_of_mem _ (List.mem_map.mpr ⟨q, h, rfl⟩)
    · by_cases h2 : k < p.1
      · simp only [entryExtend, if_neg h1, if_pos h2] at hq
        rcases List.mem_cons.mp hq with h | h
        · left; rw [h]
        · right; exact List.mem_map.mpr ⟨q, h, rfl⟩
      · simp only [entryExtend, if_neg h1, if_neg h2] at hq
        rcases List.mem_cons.mp hq with h | h
        · right; simp only [List.map_cons]; rw [h]
          exact List.mem_cons_self _ _
        · rcases ih h with h' | h'
          · left; exact h'
          · right; simp only [List.map_cons]
            exact List.mem_cons_of_mem _ h'

lemma entryExtend_sorted {k : GroupName} {vs : List RequirementSpec} :
    ∀ {l : FlatGroups}, KeySorted l → KeySorted (entryExtend k vs l) := by
  intro l
  induction l with
  | nil =>
    intro _
    unfold KeySorted entryExtend
    simp
  | cons p rest ih =>
    intro hs
    rcases keySorted_cons hs with ⟨hlt, hs'⟩
    by_cases h1 : p.1 = k
    · simp only [entryExtend, if_pos h1]
      unfold KeySorted
      rw [List.pairwise_cons]
      exact ⟨fun q hq => hlt q hq, hs'⟩
    · by_cases h2 : k < p.1
      · simp only [entryExtend, if_neg h1, if_pos h2]
        unfold KeySorted
        rw [List.pairwise_cons]
        constructor
        · intro q hq
          rcases List.mem_cons.mp hq with h | h
          · rw [h]; exact h2
          · exact Nat.lt_trans h2 (hlt q h)
        · exact hs
      · simp only [entryExtend, if_neg h1, if_neg h2]
        unfold KeySorted
        rw [List.pairwise_cons]
        constructor
        · intro q hq
          rcases entryExtend_key_mem hq with h | h
          · rw [h]
            have hle : p.1 ≤ k := Nat.le_of_not_lt h2
            exact Nat.lt_of_le_of_ne hle h1
          · rcases List.mem_map.mp h with ⟨q', hq', he⟩
            rw [← he]
            exact hlt q' hq'
        · exact ih hs'

lemma lookupKey_entryExtend_self {k : GroupName} {vs : List RequirementSpec} :
    ∀ {l : FlatGroups}, KeySorted l →
      lookupKey k (entryExtend k vs l)
        = some ((lookupKey k l).getD [] ++ vs) := by
  intro l
  induction l with
  | nil => intro _; simp [entryExtend, lookupKey]
  | cons p rest ih =>
    intro hs
    rcases keySorted_cons hs with ⟨hlt, hs'⟩
    by_cases h1 : p.1 = k
    · simp [entryExtend, if_pos h1, lookupKey, h1]
    · by_cases h2 : k < p.1
      · have hnone : lookupKey k (p :: rest) = none := by
          apply lookupKey_eq_none
          intro q hq
          rcases List.mem_cons.mp hq with h | h
          · rw [h]; exact h1
          · exact Nat.ne_of_gt (Nat.lt_trans h2 (hlt q h))
        have hnone2 : lookupKey k rest = none := by
          apply lookupKey_eq_none
          intro q hq
          exact Nat.ne_of_gt (Nat.lt_trans h2 (hlt q hq))
        simp [entryExtend, if_neg h1, if_pos h2, lookupKey, h1, hnone2]
      · simp only [entryExtend, if_neg h1, if_neg h2, lookupKey, h1, if_false]
        exact ih hs'

lemma lookupKey_entryExtend_other {k g : GroupName}
    {vs : List RequirementSpec} (hne : g ≠ k) :
    ∀ (l : FlatGroups),
      lookupKey g (entryExtend k vs l) = lookupKey g l := by
  intro l
  induction l with
  | nil => simp [entryExtend, lookupKey, Ne.symm hne]
  | cons p rest ih =>
    by_cases h1 : p.1 = k
    · have hpg : p.1 ≠ g := by rw [h1]; exact fun h => hne h.symm
      simp [entryExtend, if_pos h1, lookupKey, hpg]
    · by_cases h2 : k < p.1
      · have hkg : k ≠ g := fun h => hne h.symm
        simp [entryExtend, if_neg h1, if_pos h2, lookupKey, hkg]
      · simp only [entryExtend, if_neg h1, if_neg h2, lookupKey]
        by_cases hpg : p.1 = g
        · simp [hpg]
        · simp only [hpg, if_false]
          exact ih

lemma firstErrorOr_ok_of_forall {β : Type} :
    ∀ {l : List (Except MetadataError β)},
      (∀ x ∈ l, ∃ b, x = Except.ok b) →
        ∃ out, firstErrorOr l = Except.ok out := by
  intro l
  induction l with
  | nil => intro _; exact ⟨[], rfl⟩
  | cons x rest ih =>
    intro h
    rcases h x (List.mem_cons_self x rest) with ⟨b, hb⟩
    rcases ih (fun x' hx' => h x' (List.mem_cons_of_mem x hx')) with ⟨out, hout⟩
    subst hb
    exact ⟨b :: out, by simp [firstErrorOr, hout]⟩

/-! Helper lemmas about the depth-first group expansion.  The first four are
reduction lemmas, one per branch of `expandEntries`. -/

lemma expandEntries_nil (raw : RawGroups) (stack : List GroupName)
    (ref : GroupName) : expandEntries raw stack ref [] = Except.ok [] := by
  simp [expandEntries]

lemma expandEntries_req (raw : RawGroups) (stack : List GroupName)
    (ref : GroupName) (r : RequirementSpec) (rest : List GroupEntry) :
    expandEntries raw stack ref (GroupEntry.requirement r :: rest)
      = match expandEntries raw stack ref rest with
        | Except.error e => Except.error e
        | Except.ok rs => Except.ok (r :: rs) := by
  simp only [expandEntries]

lemma expandEntries_include_cyc {raw : RawGroups} {stack : List GroupName}
    {ref g : GroupName} {rest : List GroupEntry} (hg : g ∈ stack) :
    expandEntries raw stack ref (GroupEntry.includeGroup g :: rest)
      = Except.error (MetadataError.CyclicGroupInclusion g) := by
  simp only [expandEntries, dif_pos hg]

lemma expandEntries_include_none {raw : RawGroups} {stack : List GroupName}
    {ref g : GroupName} {rest : List GroupEntry} (hg : g ∉ stack)
    (hfind : lookupKey g raw = none) :
    expandEntries raw stack ref (GroupEntry.includeGroup g :: rest)
      = Except.error (MetadataError.UnknownGroupReference ref g) := by
  simp only [expandEntries, dif_neg hg]
  split
  · rfl
  · rename_i entries heq
    rw [hfind] at heq
    cases heq

lemma expandEntries_include_some {raw : RawGroups} {stack : List GroupName}
    {ref g : GroupName} {rest entries : List GroupEntry} (hg : g ∉ stack)
    (hfind : lookupKey g raw = some entries) :
    expandEntries raw stack ref (GroupEntry.includeGroup g :: rest)
      = match expandEntries raw (g :: stack) g entries with
        | Except.error e => Except.error e
        | Except.ok xs =>
          match expandEntries raw stack ref rest with
          | Except.error e => Except.error e
          | Except.ok ys => Except.ok (xs ++ ys) := by
  simp only [expandEntries, dif_neg hg]
  split
  · rename_i heq
    rw [hfind] at heq
    cases heq
  · rename_i entries' heq
    rw [hfind] at heq
    have : entries = entries' := by injection heq
    rw [this]

lemma expandEntries_ok_include {raw : RawGroups} {h : GroupName} :
    ∀ {es : List GroupEntry} {stack : List GroupName} {ref : GroupName}
      {v : List RequirementSpec},
      expandEntries raw stack ref es = Except.ok v →
      GroupEntry.includeGroup h ∈ es →
      h ∉ stack ∧ ∃ eh, lookupKey h raw = some eh ∧
        ∃ v', expandEntries raw (h :: stack) h eh = Except.ok v' := by
  intro es
  induction es with
  | nil => intro stack ref v _ hmem; simp at hmem
  | cons entry rest ih =>
    intro stack ref v hok hmem
    cases entry with
    | requirement r =>
      rw [expandEntries_req] at hok
      cases hr : expandEntries raw stack ref rest with
      | error e => rw [hr] at hok; simp at hok
      | ok rs =>
        rw [hr] at hok
        have hmem' : GroupEntry.includeGroup h ∈ rest := by
          rcases List.mem_cons.mp hmem with h1 | h1
          · simp at h1
          · exact h1
        exact ih hr hmem'
    | includeGroup g =>
      by_cases hg : g ∈ stack
      · rw [expandEntries_include_cyc hg] at hok
        simp at hok
      · cases hfind : lookupKey g raw with
        | none => rw [expandEntries_include_none hg hfind] at hok; simp at hok
        | some entries =>
          rw [expandEntries_include_some hg hfind] at hok
          cases hin : expandEntries raw (g :: stack) g entries with
          | error e => rw [hin] at hok; simp at hok
          | ok xs =>
            rw [hin] at hok
            cases hrest : expandEntries raw stack ref rest with
            | error e => rw [hrest] at hok; simp at hok
            | ok ys =>
              rcases List.mem_cons.mp hmem with h1 | h1
              · have hg' : h = g := by
                  injection h1
                rw [hg']
                exact ⟨hg, entries, hfind, xs, hin⟩
              · exact ih hrest h1

lemma reaches_no_ok {raw : RawGroups} :
    ∀ {g t : GroupName}, Reaches raw g t →
      ∀ {stack : List GroupName} {eg : List GroupEntry}
        {v : List RequirementSpec},
        t ∈ stack → lookupKey g raw = some eg →
        expandEntries raw stack g eg = Except.ok v → False := by
  intro g t hr
  induction hr with
  | single hedge =>
    intro stack eg v ht hlook hok
    rcases hedge with ⟨es, hles, hmem⟩
    rw [hlook] at hles
    have hes : es = eg := (Option.some.inj hles).symm
    rw [hes] at hmem
    exact (expandEntries_ok_include hok hmem).1 ht
  | cons hedge _ ih =>
    intro stack eg v ht hlook hok
    rcases hedge with ⟨es, hles, hmem⟩
    rw [hlook] at hles
    have hes : es = eg := (Option.some.inj hles).symm
    rw [hes] at hmem
    rcases expandEntries_ok_include hok hmem with ⟨_, eh, hleh, v', hok'⟩
    exact ih (List.mem_cons_of_mem _ ht) hleh hok'

lemma reaches_snoc {raw : RawGroups} {x y z : GroupName}
    (hr : Reaches raw x y) (he : hasEdge raw y z) : Reaches raw x z := by
  induction hr with
  | single h1 => exact Reaches.cons h1 (Reaches.single he)
  | cons h1 _ ih => exact Reaches.cons h1 (ih he)

lemma chained_mem_reaches {raw : RawGroups} :
    ∀ {stack : List GroupName} {ref x : GroupName},
      chainedStack raw stack → stack.head? = some ref → x ∈ stack →
      x = ref ∨ Reaches raw x ref := by
  intro stack
  induction stack with
  | nil => intro ref x _ hhd _; simp at hhd
  | cons a tail ih =>
    intro ref x hch hhd hx
    have hra : ref = a := by
      simp only [List.head?_cons, Option.some.injEq] at hhd
      exact hhd.symm
    cases tail with
    | nil =>
      rcases List.mem_cons.mp hx with h1 | h1
      · left; rw [h1, hra]
      · simp at h1
    | cons b rest =>
      have hch' : hasEdge raw b a ∧ chainedStack raw (b :: rest) := hch
      rcases List.mem_cons.mp hx with h1 | h1
      · left; rw [h1, hra]
      · rcases ih hch'.2 rfl h1 with h2 | h2
        · right; rw [hra, h2]; exact Reaches.single hch'.1
        · right; rw [hra]; exact reaches_snoc h2 hch'.1

lemma expandEntries_error_shape {raw : RawGroups} :
    ∀ (stack : List GroupName) (ref : GroupName) (es : List GroupEntry),
      ∀ e, expandEntries raw stack ref es = Except.error e →
      (∃ g, e = MetadataError.CyclicGroupInclusion g) ∨
      (∃ a b, e = MetadataError.UnknownGroupReference a b) := by
  intro stack ref es
  induction stack, ref, es using expandEntries.induct raw with
  | case1 stack ref =>
    intro e herr
    rw [expandEntries_nil] at herr
    simp at herr
  | case2 stack ref r rest e1 hrest ih =>
    intro e herr
    rw [expandEntries_req, hrest] at herr
    simp at herr
    rw [← herr]
    exact ih e1 hrest
  | case3 stack ref r rest rs hrest ih =>
    intro e herr
    rw [expandEntries_req, hrest] at herr
    simp at herr
  | case4 stack ref g rest hg =>
    intro e herr
    rw [expandEntries_include_cyc hg] at herr
    simp only [Except.error.injEq] at herr
    left
    exact ⟨g, herr.symm⟩
  | case5 stack ref g rest hg hfind =>
    intro e herr
    rw [expandEntries_include_none hg hfind] at herr
    simp only [Except.error.injEq] at herr
    right
    exact ⟨ref, g, herr.symm⟩
  | case6 stack ref g rest hg entries hfind e1 hin ih =>
    intro e herr
    rw [expandEntries_include_some hg hfind, hin] at herr
    simp at herr
    rw [← herr]
    exact ih e1 hin
  | case7 stack ref g rest hg entries hfind rs hin e1 hrest ih1 ih2 =>
    intro e herr
    rw [expandEntries_include_some hg hfind, hin, hrest] at herr
    simp at herr
    rw [← herr]
    exact ih2 e1 hrest
  | case8 stack ref g rest hg entries hfind rs hin rs1 hrest ih1 ih2 =>
    intro e herr
    rw [expandEntries_include_some hg hfind, hin, hrest] at herr
    simp at herr

lemma expandEntries_error_cyclic {raw : RawGroups} (hrefs : AllRefsExist raw) :
    ∀ (stack : List GroupName) (ref : GroupName) (es : List GroupEntry),
      chainedStack raw stack → stack.head? = some ref →
      (∀ h, GroupEntry.includeGroup h ∈ es → hasEdge raw ref h) →
      ∀ e, expandEntries raw stack ref es = Except.error e →
      ∃ g', e = MetadataError.CyclicGroupInclusion g' ∧ Reaches raw g' g' := by
  intro stack ref es
  induction stack, ref, es using expandEntries.induct raw with
  | case1 stack ref =>
    intro _ _ _ e herr
    rw [expandEntries_nil] at herr
    simp at herr
  | case2 stack ref r rest e1 hrest ih =>
    intro hch hhd hedges e herr
    rw [expandEntries_req, hrest] at herr
    simp at herr
    rw [← herr]
    exact ih hch hhd
      (fun h hm => hedges h (List.mem_cons_of_mem _ hm)) e1 hrest
  | case3 stack ref r rest rs hrest ih =>
    intro _ _ _ e herr
    rw [expandEntries_req, hrest] at herr
    simp at herr
  | case4 stack ref g rest hg =>
    intro hch hhd hedges e herr
    rw [expandEntries_include_cyc hg] at herr
    simp only [Except.error.injEq] at herr
    have hedge : hasEdge raw ref g := hedges g (List.mem_cons_self _ _)
    have hreach : Reaches raw g g := by
      rcases chained_mem_reaches hch hhd hg with h1 | h1
      · rw [h1] at hedge ⊢
        exact Reaches.single hedge
      · exact reaches_snoc h1 hedge
    exact ⟨g, herr.symm, hreach⟩
  | case5 stack ref g rest hg hfind =>
    intro hch hhd hedges e herr
    have hedge : hasEdge raw ref g := hedges g (List.mem_cons_self _ _)
    rcases hedge with ⟨es', hles', hmem'⟩
    have := hrefs ref es' g hles' hmem'
    rw [hfind] at this
    simp at this
  | case6 stack ref g rest hg entries hfind e1 hin ih =>
    intro hch hhd hedges e herr
    rw [expandEntries_include_some hg hfind, hin] at herr
    simp at herr
    rw [← herr]
    have hedge : hasEdge raw ref g := hedges g (List.mem_cons_self _ _)
    cases stack with
    | nil => simp at hhd
    | cons a tail =>
      have hra : a = ref := by
        simp only [List.head?_cons, Option.some.injEq] at hhd
        exact hhd
      have hch' : chainedStack raw (g :: a :: tail) := by
        constructor
        · rw [hra]; exact hedge
        · exact hch
      exact ih hch' rfl
        (fun h hm => ⟨entries, hfind, hm⟩) e1 hin
  | case7 stack ref g rest hg entries hfind rs hin e1 hrest ih1 ih2 =>
    intro hch hhd hedges e herr
    rw [expandEntries_include_some hg hfind, hin, hrest] at herr
    simp at herr
    rw [← herr]
    exact ih2 hch hhd
      (fun h hm => hedges h (List.mem_cons_of_mem _ hm)) e1 hrest
  | case8 stack ref g rest hg entries hfind rs hin rs1 hrest ih1 ih2 =>
    intro _ _ _ e herr
    rw [expandEntries_include_some hg hfind, hin, hrest] at herr
    simp at herr

/-! Helper lemmas about the flattener. -/

lemma forall₂_fst {β γ : Type}
    {R : (GroupName × β) → (GroupName × γ) → Prop}
    (hR : ∀ p q, R p q → q.1 = p.1) :
    ∀ {l : List (GroupName × β)} {out : List (GroupName × γ)},
      List.Forall₂ R l out → out.map Prod.fst = l.map Prod.fst := by
  intro l out h
  induction h with
  | nil => rfl
  | cons hpq _ ih =>
    simp only [List.map_cons, ih, List.cons.injEq]
    exact ⟨hR _ _ hpq, trivial⟩

lemma flatten_ok_keys {raw : RawGroups} {fg : FlatGroups}
    (h : flatten raw = Except.ok fg) :
    fg.map Prod.fst = raw.map Prod.fst := by
  unfold flatten at h
  have h2 := exceptMap_ok_forall₂ h
  apply forall₂_fst _ h2
  intro p q hpq
  cases hex : expandEntries raw [p.1] p.1 p.2 with
  | error e => rw [hex] at hpq; simp at hpq
  | ok rs =>
    rw [hex] at hpq
    have : (p.1, dedupByName [] rs) = q := by injection hpq
    rw [← this]

lemma flatten_ok_expand {raw : RawGroups} {fg : FlatGroups}
    (h : flatten raw = Except.ok fg) :
    ∀ p ∈ raw, ∃ v, expandEntries raw [p.1] p.1 p.2 = Except.ok v := by
  unfold flatten at h
  intro p hp
  rcases exceptMap_ok_forall h p hp with ⟨b, hb⟩
  cases hex : expandEntries raw [p.1] p.1 p.2 with
  | error e => rw [hex] at hb; simp at hb
  | ok rs => exact ⟨rs, rfl⟩

lemma flatten_error_expand {raw : RawGroups} {e : MetadataError}
    (h : flatten raw = Except.error e) :
    ∃ p ∈ raw, expandEntries raw [p.1] p.1 p.2 = Except.error e := by
  unfold flatten at h
  rcases exceptMap_error_exists h with ⟨p, hp, hfp⟩
  cases hex : expandEntries raw [p.1] p.1 p.2 with
  | error e' =>
    rw [hex] at hfp
    have : e' = e := by injection hfp
    exact ⟨p, hp, by rw [hex, this]⟩
  | ok rs => rw [hex] at hfp; simp at hfp

lemma flatten_error_of_shape {raw : RawGroups} {e : MetadataError}
    (h : flatten raw = Except.error e) :
    (∃ g, e = MetadataError.CyclicGroupInclusion g) ∨
    (∃ a b, e = MetadataError.UnknownGroupReference a b) := by
  rcases flatten_error_expand h with ⟨p, _, hex⟩
  exact expandEntries_error_shape [p.1] p.1 p.2 e hex

lemma flatten_cyclic {raw : RawGroups} (hs : KeySorted raw)
    (hrefs : AllRefsExist raw) {g₀ : GroupName}
    (hcyc : Reaches raw g₀ g₀) :
    ∃ g', flatten raw = Except.error (MetadataError.CyclicGroupInclusion g')
      ∧ Reaches raw g' g' := by
  have hl : ∃ es, lookupKey g₀ raw = some es := by
    cases hcyc with
    | single h1 => rcases h1 with ⟨es, hl, _⟩; exact ⟨es, hl⟩
    | cons h1 _ => rcases h1 with ⟨es, hl, _⟩; exact ⟨es, hl⟩
  rcases hl with ⟨es, hl⟩
  cases hflat : flatten raw with
  | ok fg =>
    exfalso
    have hpin : (g₀, es) ∈ raw := lookupKey_mem hl
    rcases flatten_ok_expand hflat (g₀, es) hpin with ⟨v, hok⟩
    exact reaches_no_ok hcyc (List.mem_cons_self g₀ []) hl hok
  | error e =>
    rcases flatten_error_expand hflat with ⟨p, hp, hex⟩
    have hlp : lookupKey p.1 raw = some p.2 := lookupKey_of_mem_sorted hs hp
    rcases expandEntries_error_cyclic hrefs [p.1] p.1 p.2 trivial rfl
        (fun h hm => ⟨p.2, hlp, hm⟩) e hex with ⟨g', hge, hgr⟩
    exact ⟨g', by rw [hge], hgr⟩

/-! Helper lemmas about the lowering stage. -/

lemma exceptMap_ok_of_forall {α β : Type} {f : α → Except MetadataError β} :
    ∀ {l : List α}, (∀ a ∈ l, ∃ b, f a = Except.ok b) →
      ∃ out, exceptMap f l = Except.ok out := by
  intro l
  induction l with
  | nil => intro _; exact ⟨[], rfl⟩
  | cons a rest ih =>
    intro h
    rcases h a (List.mem_cons_self a rest) with ⟨b, hb⟩
    rcases ih (fun a' ha' => h a' (List.mem_cons_of_mem a ha')) with ⟨out, hout⟩
    exact ⟨b :: out, by simp [exceptMap, hb, hout]⟩

lemma forall₂_map_eq {α β : Type} {R : α → β → Prop} {F : α → β}
    (hR : ∀ p b, R p b → b = F p) :
    ∀ {l : List α} {out : List β}, List.Forall₂ R l out → out = l.map F := by
  intro l out h
  induction h with
  | nil => rfl
  | cons hpq _ ih =>
    simp only [List.map_cons]
    rw [hR _ _ hpq, ih]

lemma wrap_forall₂ {g : GroupName} {n : PackageName} :
    ∀ {l : List (Except LowerError Requirement)} {out : List Requirement},
      List.Forall₂ (fun x b => x = Except.ok b) (l.map (wrapLowered g n)) out →
      out = okPayloads l ∧ ∀ x ∈ l, ∃ q, x = Except.ok q := by
  intro l
  induction l with
  | nil =>
    intro out h
    simp only [List.map_nil] at h
    cases h
    exact ⟨rfl, by intro x hx; simp at hx⟩
  | cons x rest ih =>
    intro out h
    simp only [List.map_cons] at h
    cases h with
    | cons h1 h2 =>
      cases x with
      | error e => simp [wrapLowered] at h1
      | ok q =>
        simp only [wrapLowered, Except.ok.injEq] at h1
        rcases ih h2 with ⟨hout, hall⟩
        constructor
        · simp only [okPayloads, hout, h1]
        · intro x' hx'
          rcases List.mem_cons.mp hx' with h3 | h3
          · exact ⟨q, h3⟩
          · exact hall x' h3

lemma lowerList_error {lower : LowerFn} {ps : SourcesTable} {g : GroupName} :
    ∀ {reqs : List RequirementSpec} {err : MetadataError},
      lowerList lower ps g reqs = Except.error err →
      ∃ r ∈ reqs, ∃ e, Except.error e ∈ lower ps r none (some g) ∧
        err = MetadataError.GroupLoweringError g r.name e := by
  intro reqs
  induction reqs with
  | nil => intro err h; simp [lowerList] at h
  | cons r rest ih =>
    intro err h
    simp only [lowerList] at h
    cases hfe : firstErrorOr ((lower ps r none (some g)).map
        (wrapLowered g r.name)) with
    | error e0 =>
      rw [hfe] at h
      have herr : e0 = err := by injection h
      have hmem := firstErrorOr_error_mem hfe
      rcases List.mem_map.mp hmem with ⟨x, hx, hwx⟩
      cases x with
      | ok q => simp [wrapLowered] at hwx
      | error e =>
        simp only [wrapLowered, Except.error.injEq] at hwx
        exact ⟨r, List.mem_cons_self r rest, e, hx, by rw [← herr, ← hwx]⟩
    | ok qs =>
      rw [hfe] at h
      cases hrest : lowerList lower ps g rest with
      | error e0 =>
        rw [hrest] at h
        have herr : e0 = err := by injection h
        rcases ih hrest with ⟨r', hr', e, he, heq⟩
        exact ⟨r', List.mem_cons_of_mem r hr', e, he, by rw [← herr, heq]⟩
      | ok qs' => rw [hrest] at h; simp at h

lemma lowerList_ok {lower : LowerFn} {ps : SourcesTable} {g : GroupName} :
    ∀ {reqs : List RequirementSpec} {qs : List Requirement},
      lowerList lower ps g reqs = Except.ok qs →
      qs = groupLowered lower ps g reqs ∧
        ∀ r ∈ reqs, ∀ x ∈ lower ps r none (some g), ∃ q, x = Except.ok q := by
  intro reqs
  induction reqs with
  | nil =>
    intro qs h
    simp only [lowerList, Except.ok.injEq] at h
    exact ⟨by rw [← h]; rfl, by intro r hr; simp at hr⟩
  | cons r rest ih =>
    intro qs h
    simp only [lowerList] at h
    cases hfe : firstErrorOr ((lower ps r none (some g)).map
        (wrapLowered g r.name)) with
    | error e0 => rw [hfe] at h; simp at h
    | ok qs0 =>
      rw [hfe] at h
      cases hrest : lowerList lower ps g rest with
      | error e0 => rw [hrest] at h; simp at h
      | ok qs' =>
        rw [hrest] at h
        have hq : qs0 ++ qs' = qs := by injection h
        have hw := wrap_forall₂ (firstErrorOr_ok_forall₂ hfe)
        rcases ih hrest with ⟨hqs', hall'⟩
        constructor
        · rw [← hq, hw.1, hqs']
          simp only [groupLowered, List.map_cons, joinLists]
        · intro r' hr' x hx
          rcases List.mem_cons.mp hr' with h1 | h1
          · rw [h1] at hx
            exact hw.2 x hx
          · exact hall' r' h1 x hx

lemma lowerList_ok_of_all {lower : LowerFn} {ps : SourcesTable}
    {g : GroupName} :
    ∀ {reqs : List RequirementSpec},
      (∀ r ∈ reqs, ∀ x ∈ lower ps r none (some g), ∃ q, x = Except.ok q) →
      ∃ qs, lowerList lower ps g reqs = Except.ok qs := by
  intro reqs
  induction reqs with
  | nil => intro _; exact ⟨[], rfl⟩
  | cons r rest ih =>
    intro h
    have hhead : ∀ y ∈ (lower ps r none (some g)).map (wrapLowered g r.name),
        ∃ b, y = Except.ok b := by
      intro y hy
      rcases List.mem_map.mp hy with ⟨x, hx, hwx⟩
      rcases h r (List.mem_cons_self r rest) x hx with ⟨q, hq⟩
      exact ⟨q, by rw [← hwx, hq]; rfl⟩
    rcases firstErrorOr_ok_of_forall hhead with ⟨qs0, hqs0⟩
    rcases ih (fun r' hr' => h r' (List.mem_cons_of_mem r hr')) with ⟨qs', hqs'⟩
    exact ⟨qs0 ++ qs', by simp [lowerList, hqs0, hqs']⟩

lemma lowerGroups_disabled (lower : LowerFn) (ps : SourcesTable)
    (fg : FlatGroups) :
    lowerGroups SourceStrategy.Disabled lower ps fg
      = Except.ok (fg.map (fun p => (p.1, p.2.map Requirement.ofSpec))) := by
  unfold lowerGroups
  exact exceptMap_map (fun p _ => rfl)

lemma lowerGroups_enabled_ok {lower : LowerFn} {ps : SourcesTable}
    {fg : FlatGroups} {lst : List (GroupName × List Requirement)}
    (h : lowerGroups SourceStrategy.Enabled lower ps fg = Except.ok lst) :
    lst = fg.map (fun p => (p.1, groupLowered lower ps p.1 p.2)) ∧
      ∀ p ∈ fg, ∀ r ∈ p.2, ∀ x ∈ lower ps r none (some p.1),
        ∃ q, x = Except.ok q := by
  unfold lowerGroups at h
  have h2 := exceptMap_ok_forall₂ h
  constructor
  · apply forall₂_map_eq _ h2
    intro p b hpb
    cases hll : lowerList lower ps p.1 p.2 with
    | error e => rw [hll] at hpb; simp at hpb
    | ok qs =>
      rw [hll] at hpb
      have hb : (p.1, qs) = b := by injection hpb
      rw [← hb, (lowerList_ok hll).1]
  · intro p hp
    have h3 := exceptMap_ok_forall h p hp
    rcases h3 with ⟨b, hb⟩
    cases hll : lowerList lower ps p.1 p.2 with
    | error e => rw [hll] at hb; simp at hb
    | ok qs => exact (lowerList_ok hll).2
lemma lowerGroups_enabled_error {lower : LowerFn} {ps : SourcesTable}
    {fg : FlatGroups} {err : MetadataError}
    (h : lowerGroups SourceStrategy.Enabled lower ps fg = Except.error err) :
    ∃ p ∈ fg, ∃ r ∈ p.2, ∃ e, Except.error e ∈ lower ps r none (some p.1) ∧
      err = MetadataError.GroupLoweringError p.1 r.name e := by
  unfold lowerGroups at h
  rcases exceptMap_error_exists h with ⟨p, hp, hfp⟩
  cases hll : lowerList lower ps p.1 p.2 with
  | error e0 =>
    rw [hll] at hfp
    have he : e0 = err := by injection hfp
    rcases lowerList_error hll with ⟨r, hr, e, he', heq⟩
    exact ⟨p, hp, r, hr, e, he', by rw [← he, heq]⟩
  | ok qs => rw [hll] at hfp; simp at hfp

lemma lowerGroups_enabled_ok_of_all {lower : LowerFn} {ps : SourcesTable}
    {fg : FlatGroups}
    (h : ∀ p ∈ fg, ∀ r ∈ p.2, ∀ x ∈ lower ps r none (some p.1),
      ∃ q, x = Except.ok q) :
    ∃ lst, lowerGroups SourceStrategy.Enabled lower ps fg = Except.ok lst := by
  unfold lowerGroups
  apply exceptMap_ok_of_forall
  intro p hp
  rcases lowerList_ok_of_all (h p hp) with ⟨qs, hqs⟩
  exact ⟨(p.1, qs), by simp [hqs]⟩

/-! Helper lemmas about the source-scoping validator. -/

lemma checkOneSource_none_of_group_none {fg : FlatGroups} {n : PackageName}
    {s : Source} (hg : Source.group s = none) :
    checkOneSource fg n s = none := by
  simp [checkOneSource, hg]

lemma validateSourcesList_none {fg : FlatGroups} {n : PackageName} :
    ∀ {srcs : List Source}, (∀ s ∈ srcs, Source.group s = none) →
      validateSourcesList fg n srcs = none := by
  intro srcs
  induction srcs with
  | nil => intro _; rfl
  | cons s rest ih =>
    intro h
    have hs : Source.group s = none := h s (List.mem_cons_self s rest)
    simp only [validateSourcesList, checkOneSource_none_of_group_none hs]
    exact ih (fun s' hs' => h s' (List.mem_cons_of_mem s hs'))

/-! Helper lemmas evaluating the pipeline per strategy. -/

lemma legacy_merge_sorted {fg : FlatGroups}
    (dev : Option (List RequirementSpec)) (h : KeySorted fg) :
    KeySorted (legacy_merge fg dev) := by
  cases dev with
  | none => exact h
  | some devs => exact entryExtend_sorted h

lemma map_fst_pair_map {β γ : Type} (F : GroupName → β → γ)
    (l : List (GroupName × β)) :
    (l.map (fun p => (p.1, F p.1 p.2))).map Prod.fst = l.map Prod.fst := by
  induction l with
  | nil => rfl
  | cons p rest ih => simp [ih]

lemma from_virtual_project_enabled_eq (raw : RawGroups)
    (dev : Option (List RequirementSpec)) (sources : SourcesTable)
    (lower : LowerFn) (pn : Option PackageName) :
    from_virtual_project raw dev sources SourceStrategy.Enabled lower pn
      = match flatten (btreeOf raw) with
        | Except.error e => Except.error e
        | Except.ok flat =>
          match validate_sources sources (legacy_merge flat dev) with
          | Except.error e => Except.error e
          | Except.ok _ =>
            match lowerGroups SourceStrategy.Enabled lower sources
                (legacy_merge flat dev) with
            | Except.error e => Except.error e
            | Except.ok lowered => Except.ok ⟨pn, btreeOf lowered⟩ := rfl

lemma from_virtual_project_disabled_eq (raw : RawGroups)
    (dev : Option (List RequirementSpec)) (sources : SourcesTable)
    (lower : LowerFn) (pn : Option PackageName) :
    from_virtual_project raw dev sources SourceStrategy.Disabled lower pn
      = match flatten (btreeOf raw) with
        | Except.error e => Except.error e
        | Except.ok flat =>
          Except.ok ⟨pn, btreeOf ((legacy_merge flat dev).map
            (fun p => (p.1, p.2.map Requirement.ofSpec)))⟩ := by
  unfold from_virtual_project
  cases hflat : flatten (btreeOf raw) with
  | error e => simp only [hflat]
  | ok flat =>
    simp only [hflat]
    rw [lowerGroups_disabled]
    rfl

lemma exceptMap_congr {α β : Type} {f g : α → Except MetadataError β} :
    ∀ {l : List α}, (∀ a ∈ l, f a = g a) → exceptMap f l = exceptMap g l := by
  intro l
  induction l with
  | nil => intro _; rfl
  | cons a rest ih =>
    intro h
    simp only [exceptMap, h a (List.mem_cons_self a rest),
      ih (fun a' ha' => h a' (List.mem_cons_of_mem a ha'))]

lemma lowerList_extra_irrelevant (lower : LowerFn) (ps : SourcesTable)
    (g : GroupName) :
    ∀ (reqs : List RequirementSpec),
      lowerList lower ps g reqs
        = lowerList (fun t r _ g' => lower t r none g') ps g reqs := by
  intro reqs
  induction reqs with
  | nil => rfl
  | cons r rest ih =>
    simp only [lowerList]
    rw [ih]

/-! The claims. -/

/-- C1: for every flattened group map, a source override for package `P`
scoped to group `g` fails validation with `MissingSourceGroup(P, g)` when `g`
is not a key of the flattened groups, fails with `IncompleteSourceGroup(P, g)`
when `g` is a key but no requirement in group `g` is named `P`, and passes —
contributing no error to any surrounding table — when `g` is a key and some
requirement in `g` is named `P`. -/
theorem claim1_validate_sources_group_scoped (fg : FlatGroups)
    (P : PackageName) (g : GroupName) (d : String) :
    (lookupKey g fg = none →
      validate_sources [(P, [⟨SourceScope.group g, d⟩])] fg
        = Except.error (MetadataError.MissingSourceGroup P g))
  ∧ (∀ deps, lookupKey g fg = some deps → (∀ r ∈ deps, r.name ≠ P) →
      validate_sources [(P, [⟨SourceScope.group g, d⟩])] fg
        = Except.error (MetadataError.IncompleteSourceGroup P g))
  ∧ (∀ deps, lookupKey g fg = some deps → (∃ r ∈ deps, r.name = P) →
      validate_sources [(P, [⟨SourceScope.group g, d⟩])] fg = Except.ok ()
    ∧ ∀ (srcs : List Source) (tbl : SourcesTable),
        validate_sources ((P, (⟨SourceScope.group g, d⟩ : Source) :: srcs) :: tbl) fg
          = validate_sources ((P, srcs) :: tbl) fg) := by
  refine ⟨?_, ?_, ?_⟩
  · intro hnone
    simp [validate_sources, validateSourcesList, checkOneSource, Source.group,
      hnone]
  · intro deps hsome hno
    have hany : deps.any (fun r => decide (r.name = P)) = false := by
      rw [List.any_eq_false]
      intro r hr
      simp [hno r hr]
    simp [validate_sources, validateSourcesList, checkOneSource, Source.group,
      hsome, hany]
  · intro deps hsome hyes
    have hany : deps.any (fun r => decide (r.name = P)) = true := by
      rw [List.any_eq_true]
      rcases hyes with ⟨r, hr, hname⟩
      exact ⟨r, hr, by simp [hname]⟩
    constructor
    · simp [validate_sources, validateSourcesList, checkOneSource,
        Source.group, hsome, hany]
    · intro srcs tbl
      simp [validate_sources, validateSourcesList, checkOneSource,
        Source.group, hsome, hany]

/-- Witness for C1 at concrete inputs: with flattened groups
`{1 ↦ [alpha], 2 ↦ [beta]}`, an override for `alpha` scoped to group 3 yields
`MissingSourceGroup`, scoped to group 2 yields `IncompleteSourceGroup`, and
scoped to group 1 validates. -/
theorem claim1_witness :
    validate_sources [("alpha", [⟨SourceScope.group 3, "./x"⟩])]
        [(1, [reqA]), (2, [reqB])]
      = Except.error (MetadataError.MissingSourceGroup "alpha" 3)
  ∧ validate_sources [("alpha", [⟨SourceScope.group 2, "./x"⟩])]
        [(1, [reqA]), (2, [reqB])]
      = Except.error (MetadataError.IncompleteSourceGroup "alpha" 2)
  ∧ validate_sources [("alpha", [⟨SourceScope.group 1, "./x"⟩])]
        [(1, [reqA]), (2, [reqB])]
      = Except.ok () := by
  refine ⟨?_, ?_, ?_⟩
  · exact (claim1_validate_sources_group_scoped [(1, [reqA]), (2, [reqB])]
      "alpha" 3 "./x").1 (by simp [lookupKey])
  · exact (claim1_validate_sources_group_scoped [(1, [reqA]), (2, [reqB])]
      "alpha" 2 "./x").2.1 [reqB] (by simp [lookupKey])
      (by intro r hr; simp at hr; simp [hr, reqB])
  · exact ((claim1_validate_sources_group_scoped [(1, [reqA]), (2, [reqB])]
      "alpha" 1 "./x").2.2 [reqA] (by simp [lookupKey])
      ⟨reqA, List.mem_cons_self _ _, rfl⟩).1

/-- C2: the legacy merge is additive — merging a legacy `dev-dependencies`
list appends it after any pre-existing entries of the reserved `dev` group
(creating the group if absent), removes or reorders nothing (every other
group's list is untouched), and performs no deduplication between legacy and
pre-existing entries; merging no legacy list is the identity. -/
theorem claim2_legacy_merge_additive (fg : FlatGroups)
    (devs : List RequirementSpec) (hfg : KeySorted fg) :
    lookupKey DEV_DEPENDENCIES (legacy_merge fg (some devs))
      = some ((lookupKey DEV_DEPENDENCIES fg).getD [] ++ devs)
  ∧ (∀ g, g ≠ DEV_DEPENDENCIES →
      lookupKey g (legacy_merge fg (some devs)) = lookupKey g fg)
  ∧ legacy_merge fg none = fg := by
  refine ⟨?_, ?_, rfl⟩
  · exact lookupKey_entryExtend_self hfg
  · intro g hne
    exact lookupKey_entryExtend_other hne fg

/-- Witness for C2 at concrete inputs: the reserved group 0 pre-populated
with `[alpha]` merged with legacy list `[alpha, beta]` becomes
`[alpha, alpha, beta]` (append after existing entries, the name collision not
deduplicated), and group 1 is untouched. -/
theorem claim2_witness :
    lookupKey DEV_DEPENDENCIES
        (legacy_merge [(0, [reqA]), (1, [reqB])] (some [reqA, reqB]))
      = some [reqA, reqA, reqB]
  ∧ lookupKey 1 (legacy_merge [(0, [reqA]), (1, [reqB])] (some [reqA, reqB]))
      = some [reqB] := by
  have hs : KeySorted ([(0, [reqA]), (1, [reqB])] : FlatGroups) := by
    unfold KeySorted
    simp
  have h := claim2_legacy_merge_additive [(0, [reqA]), (1, [reqB])]
    [reqA, reqB] hs
  constructor
  · rw [h.1]
    simp [lookupKey, DEV_DEPENDENCIES]
  · rw [h.2.1 1 (by simp [DEV_DEPENDENCIES])]
    simp [lookupKey]

/-- C9: the validator checks only group-scoped overrides — a table whose
overrides are all unscoped or extra-scoped always validates, and an override
without a group scope contributes no validation error wherever it sits. -/
theorem claim9_validate_ignores_unscoped (tbl : SourcesTable)
    (fg : FlatGroups)
    (h : ∀ p ∈ tbl, ∀ s ∈ p.2, s.scope = SourceScope.unscoped ∨
      ∃ e, s.scope = SourceScope.extra e) :
    validate_sources tbl fg = Except.ok ()
  ∧ ∀ (P : PackageName) (s : Source) (srcs : List Source)
      (tbl' : SourcesTable), Source.group s = none →
      validate_sources ((P, s :: srcs) :: tbl') fg
        = validate_sources ((P, srcs) :: tbl') fg := by
  constructor
  · induction tbl with
    | nil => rfl
    | cons p rest ih =>
      have hnone : validateSourcesList fg p.1 p.2 = none := by
        apply validateSourcesList_none
        intro s hs
        rcases h p (List.mem_cons_self p rest) s hs with h1 | ⟨e, h1⟩
        · simp [Source.group, h1]
        · simp [Source.group, h1]
      cases p with
      | mk n srcs =>
        simp only [validate_sources, hnone]
        exact ih (fun p' hp' => h p' (List.mem_cons_of_mem _ hp'))
  · intro P s srcs tbl' hg
    simp only [validate_sources, validateSourcesList,
      checkOneSource_none_of_group_none hg]

/-- Witness for C9 at concrete inputs: a table holding one unscoped and one
extra-scoped override for `alpha` validates against groups that do not even
mention `alpha`. -/
theorem claim9_witness :
    validate_sources
        [("alpha", [⟨SourceScope.unscoped, "./x"⟩,
                    ⟨SourceScope.extra "x1", "./y"⟩])]
        [(1, [reqB])]
      = Except.ok () := by
  refine (claim9_validate_ignores_unscoped
    [("alpha", [⟨SourceScope.unscoped, "./x"⟩,
                ⟨SourceScope.extra "x1", "./y"⟩])]
    [(1, [reqB])] ?_).1
  intro p hp s hs
  simp only [List.mem_singleton] at hp
  rw [hp] at hs
  simp only at hs
  rcases List.mem_cons.mp hs with h1 | h1
  · left; rw [h1]
  · simp only [List.mem_singleton] at h1
    right
    exact ⟨"x1", by rw [h1]⟩

/-- C3: with the source strategy disabled, lowering never consults the
source-override table and cannot fail — the pipeline's result is independent
of both the manifest's override table and the lowering collaborator, and the
disabled lowering branch always returns `Ok` with every requirement converted
to its plain declared form. -/
theorem claim3_disabled_passthrough (raw : RawGroups)
    (dev : Option (List RequirementSpec)) (sources₁ sources₂ : SourcesTable)
    (lower₁ lower₂ : LowerFn) (pn : Option PackageName) :
    from_virtual_project raw dev sources₁ SourceStrategy.Disabled lower₁ pn
      = from_virtual_project raw dev sources₂ SourceStrategy.Disabled lower₂ pn
  ∧ ∀ (ps : SourcesTable) (fg : FlatGroups),
      lowerGroups SourceStrategy.Disabled lower₁ ps fg
        = Except.ok (fg.map (fun p => (p.1, p.2.map Requirement.ofSpec))) := by
  constructor
  · rfl
  · intro ps fg
    exact lowerGroups_disabled lower₁ ps fg

/-- C4: with the source strategy enabled, lowering is all-or-nothing with
attributed errors — the lowering stage succeeds exactly when every
per-requirement lowering item succeeds; on failure it returns one error of
the form `GroupLoweringError(group, package, inner)` naming a group/package
pair whose lowering produced the inner error; and on success it returns the
full per-group map. -/
theorem claim4_enabled_all_or_nothing (lower : LowerFn) (ps : SourcesTable)
    (fg : FlatGroups) :
    ((∃ lst, lowerGroups SourceStrategy.Enabled lower ps fg = Except.ok lst) ↔
      ∀ p ∈ fg, ∀ r ∈ p.2, ∀ x ∈ lower ps r none (some p.1),
        ∃ q, x = Except.ok q)
  ∧ (∀ err, lowerGroups SourceStrategy.Enabled lower ps fg = Except.error err →
      ∃ p ∈ fg, ∃ r ∈ p.2, ∃ e, Except.error e ∈ lower ps r none (some p.1) ∧
        err = MetadataError.GroupLoweringError p.1 r.name e)
  ∧ (∀ lst, lowerGroups SourceStrategy.Enabled lower ps fg = Except.ok lst →
      lst = fg.map (fun p => (p.1, groupLowered lower ps p.1 p.2))) := by
  refine ⟨⟨?_, ?_⟩, ?_, ?_⟩
  · rintro ⟨lst, hlst⟩
    exact (lowerGroups_enabled_ok hlst).2
  · intro hall
    exact lowerGroups_enabled_ok_of_all hall
  · intro err herr
    exact lowerGroups_enabled_error herr
  · intro lst hlst
    exact (lowerGroups_enabled_ok hlst).1

/-- Witness for C4 at concrete inputs: lowering the single group
`{1 ↦ [alpha]}` with a collaborator that fails on every item yields exactly
`GroupLoweringError(1, alpha, boom)`, attributed to the triggering pair. -/
theorem claim4_witness :
    lowerGroups SourceStrategy.Enabled failLower [] [(1, [reqA])]
        = Except.error (MetadataError.GroupLoweringError 1 "alpha" "boom")
  ∧ (∃ p ∈ ([(1, [reqA])] : FlatGroups), ∃ r ∈ p.2, ∃ e,
      Except.error e ∈ failLower [] r none (some p.1) ∧
      MetadataError.GroupLoweringError 1 "alpha" "boom"
        = MetadataError.GroupLoweringError p.1 r.name e) :=
  ⟨rfl, (claim4_enabled_all_or_nothing failLower [] [(1, [reqA])]).2.1
    (MetadataError.GroupLoweringError 1 "alpha" "boom") rfl⟩

/-- C5: source-scoping validation observes the final group membership — in
the enabled pipeline, once the raw groups flatten to `fg`, the validation
stage is decided exactly by `validate_sources` applied to
`legacy_merge fg dev` (the flattened map after the legacy merge): if that
passes, the pipeline proceeds to lowering; if it fails, the pipeline returns
precisely that validation error. -/
theorem claim5_validation_sees_final_groups (raw : RawGroups)
    (dev : Option (List RequirementSpec)) (sources : SourcesTable)
    (lower : LowerFn) (pn : Option PackageName) (fg : FlatGroups)
    (hflat : flatten (btreeOf raw) = Except.ok fg) :
    (validate_sources sources (legacy_merge fg dev) = Except.ok () →
      from_virtual_project raw dev sources SourceStrategy.Enabled lower pn
        = match lowerGroups SourceStrategy.Enabled lower sources
            (legacy_merge fg dev) with
          | Except.error e => Except.error e
          | Except.ok lowered => Except.ok ⟨pn, btreeOf lowered⟩)
  ∧ (∀ e, validate_sources sources (legacy_merge fg dev) = Except.error e →
      from_virtual_project raw dev sources SourceStrategy.Enabled lower pn
        = Except.error e) := by
  constructor
  · intro hval
    rw [from_virtual_project_enabled_eq]
    simp only [hflat, hval]
  · intro e hval
    rw [from_virtual_project_enabled_eq]
    simp only [hflat, hval]

/-- Witness for C5 at concrete inputs: with raw groups
`{1 ↦ [include 2], 2 ↦ [alpha]}`, package `alpha` reaches group 1 only via
the include-group expansion (group 1's raw entry list holds no direct
requirement), yet an override for `alpha` scoped to group 1 validates and
the enabled pipeline succeeds, applying that override inside group 1. -/
theorem claim5_witness :
    flatten (btreeOf [(1, [GroupEntry.includeGroup 2]),
        (2, [GroupEntry.requirement reqA])])
      = Except.ok [(1, [reqA]), (2, [reqA])]
  ∧ lookupKey 1 ([(1, [GroupEntry.includeGroup 2]),
        (2, [GroupEntry.requirement reqA])] : RawGroups)
      = some [GroupEntry.includeGroup 2]
  ∧ from_virtual_project
        [(1, [GroupEntry.includeGroup 2]), (2, [GroupEntry.requirement reqA])]
        none [("alpha", [⟨SourceScope.group 1, "./a"⟩])]
        SourceStrategy.Enabled lower_requirement none
      = Except.ok ⟨none,
          [(1, [⟨"alpha", "", LoweredSource.fromOverride "./a"⟩]),
           (2, [Requirement.ofSpec reqA])]⟩ := by
  have hflat : flatten (btreeOf [(1, [GroupEntry.includeGroup 2]),
      (2, [GroupEntry.requirement reqA])])
      = Except.ok [(1, [reqA]), (2, [reqA])] := by
    simp [flatten, btreeOf, insertSorted, exceptMap, expandEntries,
      lookupKey, dedupByName]
  refine ⟨hflat, rfl, ?_⟩
  have h := (claim5_validation_sees_final_groups
    [(1, [GroupEntry.includeGroup 2]), (2, [GroupEntry.requirement reqA])]
    none [("alpha", [⟨SourceScope.group 1, "./a"⟩])] lower_requirement none
    [(1, [reqA]), (2, [reqA])] hflat).1 rfl
  rw [h]
  rfl

/-- C6: with the source strategy disabled the validator runs against the
empty override table, so the disabled pipeline either succeeds or fails with
a flattening error (`CyclicGroupInclusion` or `UnknownGroupReference`); it
never returns `MissingSourceGroup` or `IncompleteSourceGroup`, whatever
group-scoped overrides the manifest table contains. -/
theorem claim6_disabled_never_source_group_errors (raw : RawGroups)
    (dev : Option (List RequirementSpec)) (sources : SourcesTable)
    (lower : LowerFn) (pn : Option PackageName) :
    ((∃ out, from_virtual_project raw dev sources SourceStrategy.Disabled
        lower pn = Except.ok out)
      ∨ (∃ g, from_virtual_project raw dev sources SourceStrategy.Disabled
          lower pn = Except.error (MetadataError.CyclicGroupInclusion g))
      ∨ (∃ a b, from_virtual_project raw dev sources SourceStrategy.Disabled
          lower pn = Except.error (MetadataError.UnknownGroupReference a b)))
  ∧ ∀ (P : PackageName) (g : GroupName),
      from_virtual_project raw dev sources SourceStrategy.Disabled lower pn
          ≠ Except.error (MetadataError.MissingSourceGroup P g)
    ∧ from_virtual_project raw dev sources SourceStrategy.Disabled lower pn
          ≠ Except.error (MetadataError.IncompleteSourceGroup P g) := by
  have hkey : (∃ out, from_virtual_project raw dev sources
        SourceStrategy.Disabled lower pn = Except.ok out)
      ∨ (∃ g, from_virtual_project raw dev sources SourceStrategy.Disabled
          lower pn = Except.error (MetadataError.CyclicGroupInclusion g))
      ∨ (∃ a b, from_virtual_project raw dev sources SourceStrategy.Disabled
          lower pn = Except.error (MetadataError.UnknownGroupReference a b)) := by
    rw [from_virtual_project_disabled_eq]
    cases hflat : flatten (btreeOf raw) with
    | error e =>
      rcases flatten_error_of_shape hflat with ⟨g, hg⟩ | ⟨a, b, hab⟩
      · right; left
        exact ⟨g, by rw [hg]⟩
      · right; right
        exact ⟨a, b, by rw [hab]⟩
    | ok flat =>
      left
      exact ⟨_, rfl⟩
  refine ⟨hkey, ?_⟩
  intro P g
  rcases hkey with ⟨out, hout⟩ | ⟨g', hg'⟩ | ⟨a, b, hab⟩
  · exact ⟨by rw [hout]; simp, by rw [hout]; simp⟩
  · exact ⟨by rw [hg']; simp, by rw [hg']; simp⟩
  · exact ⟨by rw [hab]; simp, by rw [hab]; simp⟩

/-- Witness for C6 at concrete inputs: with a manifest table whose only
override names a nonexistent group (which would be `MissingSourceGroup`
under the enabled strategy), the disabled pipeline still succeeds. -/
theorem claim6_witness :
    (∃ out, from_virtual_project [(1, [GroupEntry.requirement reqA])] none
        [("alpha", [⟨SourceScope.group 9, "./x"⟩])]
        SourceStrategy.Disabled failLower none = Except.ok out)
      ∨ (∃ g, from_virtual_project [(1, [GroupEntry.requirement reqA])] none
          [("alpha", [⟨SourceScope.group 9, "./x"⟩])]
          SourceStrategy.Disabled failLower none
            = Except.error (MetadataError.CyclicGroupInclusion g))
      ∨ (∃ a b, from_virtual_project [(1, [GroupEntry.requirement reqA])] none
          [("alpha", [⟨SourceScope.group 9, "./x"⟩])]
          SourceStrategy.Disabled failLower none
            = Except.error (MetadataError.UnknownGroupReference a b)) :=
  (claim6_disabled_never_source_group_errors
    [(1, [GroupEntry.requirement reqA])] none
    [("alpha", [⟨SourceScope.group 9, "./x"⟩])] failLower none).1

/-- C7: output ordering — a successful pipeline run returns its
dependency-group map with group names in strictly sorted order, and each
group's requirement list is exactly the lowering (in declaration order) of
that group's flattened-plus-merged requirement list: under `Enabled` the
in-order concatenation of the per-requirement lowered items, under
`Disabled` the in-order pass-through conversion. -/
theorem claim7_output_ordering :
    (∀ (raw : RawGroups) (dev : Option (List RequirementSpec))
        (sources : SourcesTable) (lower : LowerFn) (pn : Option PackageName)
        (out : SourcedDependencyGroups),
      from_virtual_project raw dev sources SourceStrategy.Enabled lower pn
          = Except.ok out →
      KeySorted out.dependency_groups ∧
      ∃ fg, flatten (btreeOf raw) = Except.ok fg ∧
        ∀ g, lookupKey g out.dependency_groups
          = (lookupKey g (legacy_merge fg dev)).map
              (fun reqs => groupLowered lower sources g reqs))
  ∧ (∀ (raw : RawGroups) (dev : Option (List RequirementSpec))
        (sources : SourcesTable) (lower : LowerFn) (pn : Option PackageName)
        (out : SourcedDependencyGroups),
      from_virtual_project raw dev sources SourceStrategy.Disabled lower pn
          = Except.ok out →
      KeySorted out.dependency_groups ∧
      ∃ fg, flatten (btreeOf raw) = Except.ok fg ∧
        ∀ g, lookupKey g out.dependency_groups
          = (lookupKey g (legacy_merge fg dev)).map
              (fun reqs => reqs.map Requirement.ofSpec)) := by
  constructor
  · intro raw dev sources lower pn out hok
    rw [from_virtual_project_enabled_eq] at hok
    cases hflat : flatten (btreeOf raw) with
    | error e =>
      simp only [hflat] at hok
      exact absurd hok (by simp)
    | ok fg =>
      simp only [hflat] at hok
      cases hval : validate_sources sources (legacy_merge fg dev) with
      | error e =>
        simp only [hval] at hok
        exact absurd hok (by simp)
      | ok u =>
        simp only [hval] at hok
        cases hlow : lowerGroups SourceStrategy.Enabled lower sources
            (legacy_merge fg dev) with
        | error e =>
          simp only [hlow] at hok
          exact absurd hok (by simp)
        | ok lowered =>
          simp only [hlow, Except.ok.injEq] at hok
          have hdg : out.dependency_groups = btreeOf lowered := by
            rw [← hok]
          have hlst := (lowerGroups_enabled_ok hlow).1
          have hsfg : KeySorted fg :=
            keySorted_congr (flatten_ok_keys hflat).symm (btreeOf_sorted raw)
          have hsm : KeySorted (legacy_merge fg dev) :=
            legacy_merge_sorted dev hsfg
          have hslow : KeySorted lowered := by
            rw [hlst]
            exact keySorted_congr (map_fst_pair_map _ _).symm hsm
          constructor
          · rw [hdg]
            exact btreeOf_sorted _
          · refine ⟨fg, rfl, ?_⟩
            intro g
            rw [hdg, btreeOf_id hslow, hlst]
            have hmap := lookupKey_map_val (groupLowered lower sources)
              (legacy_merge fg dev) g
            simpa using hmap
  · intro raw dev sources lower pn out hok
    rw [from_virtual_project_disabled_eq] at hok
    cases hflat : flatten (btreeOf raw) with
    | error e =>
      simp only [hflat] at hok
      exact absurd hok (by simp)
    | ok fg =>
      simp only [hflat, Except.ok.injEq] at hok
      have hdg : out.dependency_groups
          = btreeOf ((legacy_merge fg dev).map
              (fun p => (p.1, p.2.map Requirement.ofSpec))) := by
        rw [← hok]
      have hsfg : KeySorted fg :=
        keySorted_congr (flatten_ok_keys hflat).symm (btreeOf_sorted raw)
      have hsm : KeySorted (legacy_merge fg dev) :=
        legacy_merge_sorted dev hsfg
      have hslow : KeySorted ((legacy_merge fg dev).map
          (fun p => (p.1, p.2.map Requirement.ofSpec))) :=
        keySorted_congr
          (map_fst_pair_map (fun _ v => v.map Requirement.ofSpec) _).symm hsm
      constructor
      · rw [hdg]
        exact btreeOf_sorted _
      · refine ⟨fg, rfl, ?_⟩
        intro g
        rw [hdg, btreeOf_id hslow]
        have hmap := lookupKey_map_val
          (fun (_ : GroupName) (v : List RequirementSpec) =>
            v.map Requirement.ofSpec)
          (legacy_merge fg dev) g
        simpa using hmap

/-- Witness for C7 at concrete inputs: the enabled pipeline on the raw groups
`{1 ↦ [alpha]}` with no overrides returns the sorted singleton map
`{1 ↦ [alpha lowered to its plain registry form]}`. -/
theorem claim7_witness :
    KeySorted ([(1, [Requirement.ofSpec reqA])] :
        List (GroupName × List Requirement))
  ∧ lookupKey 1 ([(1, [Requirement.ofSpec reqA])] :
        List (GroupName × List Requirement))
      = some [Requirement.ofSpec reqA] := by
  have hflat : flatten (btreeOf [(1, [GroupEntry.requirement reqA])])
      = Except.ok [(1, [reqA])] := by
    simp [flatten, btreeOf, insertSorted, exceptMap, expandEntries,
      dedupByName]
  have hcore : from_virtual_project [(1, [GroupEntry.requirement reqA])] none
      [] SourceStrategy.Enabled lower_requirement none
      = Except.ok ⟨none, [(1, [Requirement.ofSpec reqA])]⟩ := by
    rw [from_virtual_project_enabled_eq]
    simp only [hflat]
    rfl
  obtain ⟨hs, fg, hf, hl⟩ := claim7_output_ordering.1
    [(1, [GroupEntry.requirement reqA])] none [] lower_requirement none
    ⟨none, [(1, [Requirement.ofSpec reqA])]⟩ hcore
  exact ⟨hs, rfl⟩

/-- C8: group lowering carries no extra context — the enabled lowering stage
invokes the collaborator with `extra = none` for every requirement (so its
result never depends on how the collaborator would treat a present extra),
and in the spec-modelled override-applicability test an override applies
under `(extra = none, group = some g)` exactly when its scope is `Unscoped`
or `Group g`; an `Extra`-scoped override never applies. -/
theorem claim8_group_lowering_no_extra_context (lower : LowerFn)
    (ps : SourcesTable) (fg : FlatGroups) :
    lowerGroups SourceStrategy.Enabled lower ps fg
      = lowerGroups SourceStrategy.Enabled (fun t r _ g => lower t r none g)
          ps fg
  ∧ (∀ (s : Source) (g : GroupName),
      sourceApplies s none (some g) = true ↔
        (s.scope = SourceScope.unscoped ∨ s.scope = SourceScope.group g))
  ∧ (∀ (s : Source) (g : GroupName) (e : ExtraName),
      s.scope = SourceScope.extra e → sourceApplies s none (some g) = false) := by
  refine ⟨?_, ?_, ?_⟩
  · unfold lowerGroups
    apply exceptMap_congr
    intro p _
    rw [lowerList_extra_irrelevant]
  · intro s g
    cases hs : s.scope with
    | unscoped => simp [sourceApplies, hs]
    | extra e => simp [sourceApplies, hs]
    | group g' => simp [sourceApplies, hs, eq_comm]
  · intro s g e hs
    simp [sourceApplies, hs]

/-- Witness for C8 at a concrete input: an extra-scoped override does not
apply during group lowering. -/
theorem claim8_witness :
    sourceApplies ⟨SourceScope.extra "x1", "./x"⟩ none (some 1) = false :=
  (claim8_group_lowering_no_extra_context failLower [] []).2.2
    ⟨SourceScope.extra "x1", "./x"⟩ 1 "x1" rfl

/-- Counterexample to C10 as stated: in the raw map
`{0 ↦ [include 1, include 0]}` group 0 transitively (indeed directly)
includes itself, yet flattening fails with `UnknownGroupReference(0, 1)` —
the missing reference is hit before the cycle — not with
`CyclicGroupInclusion`. -/
theorem claim10_counterexample :
    ¬ (∀ (raw : RawGroups) (g₀ : GroupName), Reaches raw g₀ g₀ →
        ∃ g', flatten raw
          = Except.error (MetadataError.CyclicGroupInclusion g')) := by
  intro hclaim
  have hedge : hasEdge
      [(0, [GroupEntry.includeGroup 1, GroupEntry.includeGroup 0])] 0 0 := by
    refine ⟨[GroupEntry.includeGroup 1, GroupEntry.includeGroup 0], rfl, ?_⟩
    simp
  rcases hclaim _ 0 (Reaches.single hedge) with ⟨g', hg'⟩
  have heval : flatten
      [(0, [GroupEntry.includeGroup 1, GroupEntry.includeGroup 0])]
      = Except.error (MetadataError.UnknownGroupReference 0 1) := by
    simp [flatten, exceptMap, expandEntries, lookupKey]
  rw [heval] at hg'
  simp at hg'

/-- C10 (amended): for every raw group map (with its `BTreeMap`-sorted keys)
in which every `include-group` reference names an existing group and some
group transitively includes itself, flattening fails with a
`CyclicGroupInclusion` error naming a group that transitively includes
itself, no flattened result is produced, and the whole resolution call
returns that error under either strategy. -/
theorem claim10_cycle_rejected (raw : RawGroups) (hs : KeySorted raw)
    (hrefs : AllRefsExist raw) (g₀ : GroupName) (hcyc : Reaches raw g₀ g₀) :
    ∃ g', flatten raw = Except.error (MetadataError.CyclicGroupInclusion g')
      ∧ Reaches raw g' g'
      ∧ ∀ (dev : Option (List RequirementSpec)) (sources : SourcesTable)
          (strat : SourceStrategy) (lower : LowerFn) (pn : Option PackageName),
          from_virtual_project raw dev sources strat lower pn
            = Except.error (MetadataError.CyclicGroupInclusion g') := by
  rcases flatten_cyclic hs hrefs hcyc with ⟨g', hflat, hreach⟩
  refine ⟨g', hflat, hreach, ?_⟩
  intro dev sources strat lower pn
  unfold from_virtual_project
  rw [btreeOf_id hs]
  simp only [hflat]

/-- Witness for C10 (amended) at concrete inputs: the two-group cycle
`{0 ↦ [include 1], 1 ↦ [include 0]}` makes the whole resolution call fail
with `CyclicGroupInclusion(0)`. -/
theorem claim10_witness :
    from_virtual_project
        [(0, [GroupEntry.includeGroup 1]), (1, [GroupEntry.includeGroup 0])]
        none [] SourceStrategy.Enabled lower_requirement none
      = Except.error (MetadataError.CyclicGroupInclusion 0) := by
  have hs : KeySorted ([(0, [GroupEntry.includeGroup 1]),
      (1, [GroupEntry.includeGroup 0])] : RawGroups) := by
    unfold KeySorted
    simp
  have hrefs : AllRefsExist [(0, [GroupEntry.includeGroup 1]),
      (1, [GroupEntry.includeGroup 0])] := by
    intro g entries h hl hm
    by_cases h0 : (0 : Nat) = g
    · subst h0
      simp [lookupKey] at hl
      rw [← hl] at hm
      simp at hm
      rw [hm]
      rfl
    · by_cases h1 : (1 : Nat) = g
      · subst h1
        simp [lookupKey, h0] at hl
        rw [← hl] at hm
        simp at hm
        rw [hm]
        rfl
      · simp [lookupKey, h0, h1] at hl
  have he01 : hasEdge [(0, [GroupEntry.includeGroup 1]),
      (1, [GroupEntry.includeGroup 0])] 0 1 :=
    ⟨[GroupEntry.includeGroup 1], rfl, by simp⟩
  have he10 : hasEdge [(0, [GroupEntry.includeGroup 1]),
      (1, [GroupEntry.includeGroup 0])] 1 0 :=
    ⟨[GroupEntry.includeGroup 0], by simp [lookupKey], by simp⟩
  have hcyc : Reaches [(0, [GroupEntry.includeGroup 1]),
      (1, [GroupEntry.includeGroup 0])] 0 0 :=
    Reaches.cons he01 (Reaches.single he10)
  obtain ⟨g', hflat, hreach, hcore⟩ := claim10_cycle_rejected
    [(0, [GroupEntry.includeGroup 1]), (1, [GroupEntry.includeGroup 0])]
    hs hrefs 0 hcyc
  have heval : flatten [(0, [GroupEntry.includeGroup 1]),
      (1, [GroupEntry.includeGroup 0])]
      = Except.error (MetadataError.CyclicGroupInclusion 0) := by
    simp [flatten, exceptMap, expandEntries, lookupKey]
  rw [heval] at hflat
  have hg : (0 : GroupName) = g' := by
    simp at hflat
    exact hflat
  rw [← hg] at hcore
  exact hcore none [] SourceStrategy.Enabled lower_requirement none

end Uv
